import Mathlib

/-!
# Verification of the threshold-signing core of the FOMC oracle repository

This file embeds the arithmetic and coordination core of the repository
(`threshold_signing.py`, `client.py`, `multi_web_api.py`) as executable Lean
definitions and proves the specified properties about them.

Conventions of the embedding:
* Python integers become `ℤ` (or `ℕ` where the source guarantees nonnegativity);
  Python `%` with a positive modulus agrees with `Int.emod`.
* Randomness (`secrets.randbelow`) is passed in explicitly as arguments.
* Python exceptions (`ValueError`, `RuntimeError`, `OverflowError`) become `none`
  in an `Option` result.
* The BLS12-381 groups are abstracted: combination only uses point addition and
  scalar multiplication, so it is embedded generically over an additive
  commutative group, with the single fact (true for the G2 subgroup) that the
  hashed message point is killed by the group order.
-/

set_option maxRecDepth 10000

/-- Order of the BLS12-381 G1/G2 subgroups: the scalar-field modulus used
throughout `threshold_signing.py` (imported there as
`py_ecc.optimized_bls12_381.curve_order`). -/
def curve_order : ℕ :=
  52435875175126190479447740508185965837690552500527637822603658699938581184513

/-- Fuel-indexed binary modular exponentiation, the executable model of Python's
three-argument `pow`.  `powModFuel f a e p = a ^ e % p` whenever `e < 2 ^ f`. -/
def powModFuel : ℕ → ℕ → ℕ → ℕ → ℕ
  | 0, _, _, p => 1 % p
  | f + 1, a, e, p =>
    if e = 0 then 1 % p
    else
      let r := powModFuel f (a * a % p) (e / 2) p
      if e % 2 = 1 then r * a % p else r

theorem powModFuel_eq (f : ℕ) : ∀ a e p : ℕ, e < 2 ^ f → powModFuel f a e p = a ^ e % p := by
  induction f with
  | zero =>
    intro a e p he
    interval_cases e
    simp [powModFuel]
  | succ f ih =>
    intro a e p he
    rcases Nat.eq_zero_or_pos e with rfl | hpos
    · simp [powModFuel]
    · have hne : e ≠ 0 := Nat.pos_iff_ne_zero.mp hpos
      have hdiv : e / 2 < 2 ^ f := by
        have h2 : e < 2 ^ f * 2 := by
          calc e < 2 ^ (f + 1) := he
          _ = 2 ^ f * 2 := by ring
        exact Nat.div_lt_of_lt_mul (by omega)
      have hr := ih (a * a % p) (e / 2) p hdiv
      have hsq : (a * a % p) ^ (e / 2) % p = a ^ (2 * (e / 2)) % p := by
        rw [← Nat.pow_mod, two_mul, pow_add, mul_pow]
      rcases Nat.even_or_odd e with heven | hodd
      · have h2 : e % 2 = 0 := Nat.even_iff.mp heven
        have he2 : 2 * (e / 2) = e := by omega
        simp only [powModFuel, if_neg hne, h2]
        rw [if_neg (by omega), hr, hsq, he2]
      · have h2 : e % 2 = 1 := Nat.odd_iff.mp hodd
        have he2 : 2 * (e / 2) + 1 = e := by omega
        simp only [powModFuel, if_neg hne, h2]
        rw [if_pos trivial, hr, hsq, Nat.mod_mul_mod, ← pow_succ, he2]

/-- Model of Python `pow(x, -1, curve_order)` (the body of `mod_inv` in
`threshold_signing.py`): the modular inverse of `x` in `[0, curve_order)`, or
`none` for the `ValueError` Python raises when `x` is not invertible.  Python
finds the inverse by extended gcd; since the inverse in `[0, curve_order)` is
unique and the failure condition (`gcd ≠ 1`) is the same, computing it as
`x ^ (curve_order - 2)` is extensionally the same function. -/
def mod_inv (x : ℤ) : Option ℤ :=
  let a : ℕ := (x % (curve_order : ℤ)).toNat
  if Nat.gcd a curve_order = 1 then
    some ((powModFuel 256 a (curve_order - 2) curve_order : ℕ) : ℤ)
  else none

/-- One iteration of the loop in `lagrange_coefficient`: `continue` when
`j == i`, otherwise update `num = num * j % curve_order` and
`den = den * (j - i) % curve_order`. -/
def lagrange_step (i : ℤ) (p : ℤ × ℤ) (j : ℤ) : ℤ × ℤ :=
  if j = i then p
  else (p.1 * j % (curve_order : ℤ), p.2 * (j - i) % (curve_order : ℤ))

/-- `lagrange_coefficient` from `threshold_signing.py`: one pass over `ids`
accumulating `num = Π j` and `den = Π (j - i)` over `j ∈ ids`, `j ≠ i` (each
step reduced mod `curve_order`), returning `num * mod_inv den % curve_order`;
`none` models the `ValueError` propagating out of `mod_inv`. -/
def lagrange_coefficient (i : ℤ) (ids : List ℤ) : Option ℤ :=
  let nd := ids.foldl (lagrange_step i) (1, 1)
  (mod_inv nd.2).map fun d => nd.1 * d % (curve_order : ℤ)

/-- `generate_polynomial` from `threshold_signing.py` builds
`[secret] ++ random coefficients`; the `degree` draws of `secrets.randbelow`
are passed in explicitly as `coefs`. -/
def generate_polynomial (coefs : List ℤ) (secret : ℤ) : List ℤ :=
  secret :: coefs

/-- `evaluate_polynomial` from `threshold_signing.py`: Horner-free evaluation
`Σ coef_k * (x ^ k mod q) mod q`, reduced after every step exactly as in the
Python loop. -/
def evaluate_polynomial (poly : List ℤ) (x : ℤ) : ℤ :=
  poly.enum.foldl
    (fun result ic =>
      (result + ic.2 * (x ^ ic.1 % (curve_order : ℤ)) % (curve_order : ℤ)) % (curve_order : ℤ))
    0

/-- The share-reconstruction loop in `generate_threshold_keys`
(`threshold_signing.py` lines 191-197): folds
`reconstructed = (reconstructed + coeff * share % q) % q` over the ids, where
`coeff` is the Lagrange coefficient; `none` models a `ValueError` escaping
`lagrange_coefficient`. -/
def reconstruct_secret (ids : List ℤ) (share : ℤ → ℤ) : Option ℤ :=
  ids.foldlM
    (fun acc i =>
      (lagrange_coefficient i ids).map fun coeff =>
        (acc + coeff * share i % (curve_order : ℤ)) % (curve_order : ℤ))
    0

/-! ## Primality of the scalar-field order

`curve_order` is certified prime by a Lucas certificate with witness `7`
(the standard generator of the multiplicative group of the BLS12-381 scalar
field) over the known factorization of `curve_order - 1`. -/

theorem curve_order_sub_one_fac :
    curve_order - 1 = 2 ^ 32 * 3 * 11 * 19 * 10177 * 125527 * 859267 * 906349 ^ 2 *
      2508409 * 2529403 * 52437899 * 254760293 ^ 2 := by
  decide

/-- Generic bridge from `powModFuel` to powers in `ZMod p` (used for the
Lucas certificates of the two largest factors, whose trial-division
certificates would be impractically large). -/
theorem zmod_pow_powModFuel_any (p a e : ℕ) (he : e < 2 ^ 64) :
    ((a : ℕ) : ZMod p) ^ e = ((powModFuel 64 a e p : ℕ) : ZMod p) := by
  rw [powModFuel_eq 64 a e p he, ZMod.natCast_mod, Nat.cast_pow]

theorem powModFuel_ne_one_zmod (p : ℕ) (hp : 1 < p) (a e : ℕ)
    (he : e < 2 ^ 64) (h1 : powModFuel 64 a e p ≠ 1) :
    ((a : ℕ) : ZMod p) ^ e ≠ 1 := by
  haveI : NeZero p := ⟨by omega⟩
  haveI : Fact (1 < p) := ⟨hp⟩
  intro h
  rw [zmod_pow_powModFuel_any p a e he] at h
  have hlt : powModFuel 64 a e p < p := by
    rw [powModFuel_eq 64 a e p he]
    exact Nat.mod_lt _ (by omega)
  have hval := congrArg ZMod.val h
  rw [ZMod.val_cast_of_lt hlt, ZMod.val_one] at hval
  exact h1 hval

theorem prime_609743 : Nat.Prime 609743 := by norm_num

theorem prime_2653753 : Nat.Prime 2653753 := by norm_num

theorem prime_52437899 : Nat.Prime 52437899 := by
  apply lucas_primality 52437899 2
  · have hcast : ((2 : ℕ) : ZMod 52437899) = (2 : ZMod 52437899) := by norm_num
    rw [← hcast, zmod_pow_powModFuel_any _ _ _ (by norm_num),
      show powModFuel 64 2 (52437899 - 1) 52437899 = 1 from by decide]
    exact Nat.cast_one
  · intro q hq hdvd
    have hmem : q = 2 ∨ q = 43 ∨ q = 609743 := by
      have hfac : 52437899 - 1 = 2 * 43 * 609743 := by norm_num
      rw [hfac] at hdvd
      rcases (Nat.Prime.dvd_mul hq).mp hdvd with h | h
      · rcases (Nat.Prime.dvd_mul hq).mp h with h | h
        · exact Or.inl ((Nat.prime_dvd_prime_iff_eq hq (by norm_num)).mp h)
        · exact Or.inr (Or.inl ((Nat.prime_dvd_prime_iff_eq hq (by norm_num)).mp h))
      · exact Or.inr (Or.inr ((Nat.prime_dvd_prime_iff_eq hq prime_609743).mp h))
    have hcast : ((2 : ℕ) : ZMod 52437899) = (2 : ZMod 52437899) := by norm_num
    rcases hmem with rfl | rfl | rfl <;>
    · rw [← hcast]
      exact powModFuel_ne_one_zmod _ (by norm_num) 2 _ (by norm_num) (by decide)

theorem prime_63690073 : Nat.Prime 63690073 := by
  apply lucas_primality 63690073 7
  · have hcast : ((7 : ℕ) : ZMod 63690073) = (7 : ZMod 63690073) := by norm_num
    rw [← hcast, zmod_pow_powModFuel_any _ _ _ (by norm_num),
      show powModFuel 64 7 (63690073 - 1) 63690073 = 1 from by decide]
    exact Nat.cast_one
  · intro q hq hdvd
    have hmem : q = 2 ∨ q = 3 ∨ q = 2653753 := by
      have hfac : 63690073 - 1 = 2 ^ 3 * 3 * 2653753 := by norm_num
      rw [hfac] at hdvd
      rcases (Nat.Prime.dvd_mul hq).mp hdvd with h | h
      · rcases (Nat.Prime.dvd_mul hq).mp h with h | h
        · exact Or.inl ((Nat.prime_dvd_prime_iff_eq hq (by norm_num)).mp
            (hq.dvd_of_dvd_pow h))
        · exact Or.inr (Or.inl ((Nat.prime_dvd_prime_iff_eq hq (by norm_num)).mp h))
      · exact Or.inr (Or.inr ((Nat.prime_dvd_prime_iff_eq hq prime_2653753).mp h))
    have hcast : ((7 : ℕ) : ZMod 63690073) = (7 : ZMod 63690073) := by norm_num
    rcases hmem with rfl | rfl | rfl <;>
    · rw [← hcast]
      exact powModFuel_ne_one_zmod _ (by norm_num) 7 _ (by norm_num) (by decide)

theorem prime_254760293 : Nat.Prime 254760293 := by
  apply lucas_primality 254760293 2
  · have hcast : ((2 : ℕ) : ZMod 254760293) = (2 : ZMod 254760293) := by norm_num
    rw [← hcast, zmod_pow_powModFuel_any _ _ _ (by norm_num),
      show powModFuel 64 2 (254760293 - 1) 254760293 = 1 from by decide]
    exact Nat.cast_one
  · intro q hq hdvd
    have hmem : q = 2 ∨ q = 63690073 := by
      have hfac : 254760293 - 1 = 2 ^ 2 * 63690073 := by norm_num
      rw [hfac] at hdvd
      rcases (Nat.Prime.dvd_mul hq).mp hdvd with h | h
      · exact Or.inl ((Nat.prime_dvd_prime_iff_eq hq (by norm_num)).mp
          (hq.dvd_of_dvd_pow h))
      · exact Or.inr ((Nat.prime_dvd_prime_iff_eq hq prime_63690073).mp h)
    have hcast : ((2 : ℕ) : ZMod 254760293) = (2 : ZMod 254760293) := by norm_num
    rcases hmem with rfl | rfl <;>
    · rw [← hcast]
      exact powModFuel_ne_one_zmod _ (by norm_num) 2 _ (by norm_num) (by decide)

theorem prime_divisor_of_curve_order_sub_one (r : ℕ) (hr : r.Prime)
    (hd : r ∣ curve_order - 1) :
    r = 2 ∨ r = 3 ∨ r = 11 ∨ r = 19 ∨ r = 10177 ∨ r = 125527 ∨ r = 859267 ∨
      r = 906349 ∨ r = 2508409 ∨ r = 2529403 ∨ r = 52437899 ∨ r = 254760293 := by
  rw [curve_order_sub_one_fac] at hd
  have hp3 : Nat.Prime 3 := by norm_num
  have hp11 : Nat.Prime 11 := by norm_num
  have hp19 : Nat.Prime 19 := by norm_num
  have hp10177 : Nat.Prime 10177 := by norm_num
  have hp125527 : Nat.Prime 125527 := by norm_num
  have hp859267 : Nat.Prime 859267 := by norm_num
  have hp906349 : Nat.Prime 906349 := by norm_num
  have hp2508409 : Nat.Prime 2508409 := by norm_num
  have hp2529403 : Nat.Prime 2529403 := by norm_num
  have hp52437899 : Nat.Prime 52437899 := prime_52437899
  have hp254760293 : Nat.Prime 254760293 := prime_254760293
  have step : ∀ m k : ℕ, Nat.Prime k → r ∣ m * k → r ∣ m ∨ r = k := by
    intro m k hk hmk
    rcases (Nat.Prime.dvd_mul hr).mp hmk with h | h
    · exact Or.inl h
    · exact Or.inr ((Nat.prime_dvd_prime_iff_eq hr hk).mp h)
  have steppow : ∀ m k e : ℕ, Nat.Prime k → r ∣ m * k ^ e → r ∣ m ∨ r = k := by
    intro m k e hk hmk
    rcases (Nat.Prime.dvd_mul hr).mp hmk with h | h
    · exact Or.inl h
    · exact Or.inr ((Nat.prime_dvd_prime_iff_eq hr hk).mp (hr.dvd_of_dvd_pow h))
  rcases steppow _ _ _ hp254760293 hd with hd | rfl
  · rcases step _ _ hp52437899 hd with hd | rfl
    · rcases step _ _ hp2529403 hd with hd | rfl
      · rcases step _ _ hp2508409 hd with hd | rfl
        · rcases steppow _ _ _ hp906349 hd with hd | rfl
          · rcases step _ _ hp859267 hd with hd | rfl
            · rcases step _ _ hp125527 hd with hd | rfl
              · rcases step _ _ hp10177 hd with hd | rfl
                · rcases step _ _ hp19 hd with hd | rfl
                  · rcases step _ _ hp11 hd with hd | rfl
                    · rcases step _ _ hp3 hd with hd | rfl
                      · exact Or.inl ((Nat.prime_dvd_prime_iff_eq hr (by norm_num)).mp
                          (hr.dvd_of_dvd_pow hd))
                      · exact Or.inr (Or.inl rfl)
                    · exact Or.inr (Or.inr (Or.inl rfl))
                  · exact Or.inr (Or.inr (Or.inr (Or.inl rfl)))
                · exact Or.inr (Or.inr (Or.inr (Or.inr (Or.inl rfl))))
              · exact Or.inr (Or.inr (Or.inr (Or.inr (Or.inr (Or.inl rfl)))))
            · exact Or.inr (Or.inr (Or.inr (Or.inr (Or.inr (Or.inr (Or.inl rfl))))))
          · exact Or.inr (Or.inr (Or.inr (Or.inr (Or.inr (Or.inr (Or.inr (Or.inl rfl)))))))
        · exact Or.inr (Or.inr (Or.inr (Or.inr (Or.inr (Or.inr (Or.inr (Or.inr
            (Or.inl rfl))))))))
      · exact Or.inr (Or.inr (Or.inr (Or.inr (Or.inr (Or.inr (Or.inr (Or.inr (Or.inr
          (Or.inl rfl)))))))))
    · exact Or.inr (Or.inr (Or.inr (Or.inr (Or.inr (Or.inr (Or.inr (Or.inr (Or.inr
        (Or.inr (Or.inl rfl))))))))))
  · exact Or.inr (Or.inr (Or.inr (Or.inr (Or.inr (Or.inr (Or.inr (Or.inr (Or.inr
      (Or.inr (Or.inr rfl))))))))))

theorem curve_order_pos : 0 < curve_order := by decide

theorem one_lt_curve_order : 1 < curve_order := by decide

/-- Bridge from `powModFuel` computations to powers in `ZMod curve_order`. -/
theorem zmod_pow_powModFuel (a e : ℕ) (he : e < 2 ^ 256) :
    ((a : ℕ) : ZMod curve_order) ^ e
      = ((powModFuel 256 a e curve_order : ℕ) : ZMod curve_order) := by
  rw [powModFuel_eq 256 a e curve_order he, ZMod.natCast_mod, Nat.cast_pow]

theorem curve_order_prime : Nat.Prime curve_order := by
  haveI : Fact (1 < curve_order) := ⟨one_lt_curve_order⟩
  have hq1 : curve_order - 1 < 2 ^ 256 := by decide
  have hcast7 : ((7 : ℕ) : ZMod curve_order) = (7 : ZMod curve_order) := by
    norm_num
  have hne_one : ∀ e : ℕ, e < 2 ^ 256 → powModFuel 256 7 e curve_order ≠ 1 →
      (7 : ZMod curve_order) ^ e ≠ 1 := by
    intro e he hne h1
    rw [← hcast7, zmod_pow_powModFuel 7 e he] at h1
    have hlt : powModFuel 256 7 e curve_order < curve_order := by
      rw [powModFuel_eq 256 7 e curve_order he]
      exact Nat.mod_lt _ curve_order_pos
    have hval := congrArg ZMod.val h1
    rw [ZMod.val_cast_of_lt hlt, ZMod.val_one] at hval
    exact hne hval
  apply lucas_primality curve_order 7
  · rw [← hcast7, zmod_pow_powModFuel 7 (curve_order - 1) hq1,
      show powModFuel 256 7 (curve_order - 1) curve_order = 1 from by decide]
    exact Nat.cast_one
  · intro r hr hdvd
    have hdive : ∀ m : ℕ, (curve_order - 1) / m < 2 ^ 256 := fun m =>
      lt_of_le_of_lt (Nat.div_le_self _ _) hq1
    rcases prime_divisor_of_curve_order_sub_one r hr hdvd with
      rfl | rfl | rfl | rfl | rfl | rfl | rfl | rfl | rfl | rfl | rfl | rfl <;>
      exact hne_one _ (hdive _) (by decide)

/-! ## The scalar field and basic cast bridges -/

instance : Fact (Nat.Prime curve_order) := ⟨curve_order_prime⟩

instance : NeZero curve_order := ⟨Nat.pos_iff_ne_zero.mp curve_order_pos⟩

theorem intCast_emod_curve (a : ℤ) :
    ((a % (curve_order : ℤ) : ℤ) : ZMod curve_order) = (a : ZMod curve_order) := by
  rw [ZMod.intCast_eq_intCast_iff']
  exact Int.emod_emod_of_dvd a dvd_rfl

theorem intCast_curve_inj {a b : ℤ} (ha0 : 0 ≤ a) (ha : a < curve_order)
    (hb0 : 0 ≤ b) (hb : b < curve_order)
    (h : (a : ZMod curve_order) = (b : ZMod curve_order)) : a = b := by
  rw [ZMod.intCast_eq_intCast_iff'] at h
  rwa [Int.emod_eq_of_lt ha0 ha, Int.emod_eq_of_lt hb0 hb] at h

theorem intCast_curve_ne {a b : ℤ} (hne : a ≠ b) (habs : |a - b| < curve_order) :
    (a : ZMod curve_order) ≠ (b : ZMod curve_order) := by
  intro h
  rw [ZMod.intCast_eq_intCast_iff_dvd_sub] at h
  have h0 : b - a = 0 := Int.eq_zero_of_abs_lt_dvd h (by rwa [abs_sub_comm])
  exact hne (by linarith)

theorem curve_order_sub_two_lt : curve_order - 2 < 2 ^ 256 := by decide

/-- `mod_inv` succeeds exactly on the units of the scalar field and returns the
canonical representative of the field inverse. -/
theorem mod_inv_spec (x : ℤ) (hx : (x : ZMod curve_order) ≠ 0) :
    ∃ y : ℤ, mod_inv x = some y ∧ 0 ≤ y ∧ y < (curve_order : ℤ) ∧
      (y : ZMod curve_order) = (x : ZMod curve_order)⁻¹ := by
  have hqpos : (0 : ℤ) < (curve_order : ℤ) := by exact_mod_cast curve_order_pos
  set a : ℕ := (x % (curve_order : ℤ)).toNat with ha
  have hxa : ((a : ℕ) : ℤ) = x % (curve_order : ℤ) :=
    Int.toNat_of_nonneg (Int.emod_nonneg x (by exact_mod_cast Nat.pos_iff_ne_zero.mp curve_order_pos))
  have hacast : ((a : ℕ) : ZMod curve_order) = (x : ZMod curve_order) := by
    have : (((a : ℕ) : ℤ) : ZMod curve_order) = (x : ZMod curve_order) := by
      rw [hxa, intCast_emod_curve]
    simpa using this
  have hnd : ¬ curve_order ∣ a := by
    intro hdvd
    apply hx
    rw [← hacast, ZMod.natCast_zmod_eq_zero_iff_dvd]
    exact hdvd
  have hgcd : Nat.gcd a curve_order = 1 :=
    Nat.coprime_comm.mp (curve_order_prime.coprime_iff_not_dvd.mpr hnd)
  have hres : mod_inv x = some ((powModFuel 256 a (curve_order - 2) curve_order : ℕ) : ℤ) := by
    rw [mod_inv]
    simp only [← ha, if_pos hgcd]
  refine ⟨_, hres, Int.natCast_nonneg _, ?_, ?_⟩
  · have : powModFuel 256 a (curve_order - 2) curve_order < curve_order := by
      rw [powModFuel_eq 256 a (curve_order - 2) curve_order curve_order_sub_two_lt]
      exact Nat.mod_lt _ curve_order_pos
    exact_mod_cast this
  · have hpow : ((powModFuel 256 a (curve_order - 2) curve_order : ℕ) : ZMod curve_order)
        = ((a : ℕ) : ZMod curve_order) ^ (curve_order - 2) :=
      (zmod_pow_powModFuel a (curve_order - 2) curve_order_sub_two_lt).symm
    have hone : (x : ZMod curve_order) ^ (curve_order - 2) * (x : ZMod curve_order) = 1 := by
      have h21 : curve_order - 2 + 1 = curve_order - 1 := by
        have := one_lt_curve_order; omega
      rw [← pow_succ, h21]
      exact ZMod.pow_card_sub_one_eq_one hx
    have : (((powModFuel 256 a (curve_order - 2) curve_order : ℕ) : ℤ) : ZMod curve_order)
        = (x : ZMod curve_order) ^ (curve_order - 2) := by
      push_cast
      rw [hpow, hacast]
    rw [this]
    exact eq_inv_of_mul_eq_one_left hone

/-! ## Characterizing `lagrange_coefficient` over the scalar field -/

theorem lagrange_fold_cast (i : ℤ) (ids : List ℤ) : ∀ a b : ℤ,
    (((ids.foldl (lagrange_step i) (a, b)).1 : ℤ) : ZMod curve_order)
        = (a : ZMod curve_order)
          * ((ids.map fun j =>
              if j = i then 1 else (j : ZMod curve_order))).prod
    ∧ (((ids.foldl (lagrange_step i) (a, b)).2 : ℤ) : ZMod curve_order)
        = (b : ZMod curve_order)
          * ((ids.map fun j =>
              if j = i then 1
              else (j : ZMod curve_order) - (i : ZMod curve_order))).prod := by
  induction ids with
  | nil => intro a b; simp
  | cons j rest ih =>
    intro a b
    by_cases hj : j = i
    · simpa [lagrange_step, hj] using ih a b
    · simp only [List.foldl_cons, lagrange_step, if_neg hj, List.map_cons,
        List.prod_cons]
      constructor
      · rw [(ih _ _).1, intCast_emod_curve]
        push_cast
        ring
      · rw [(ih _ _).2, intCast_emod_curve]
        push_cast
        ring

theorem list_if_prod_toFinset (ids : List ℤ) (hnd : ids.Nodup) (i : ℤ)
    (g : ℤ → ZMod curve_order) :
    ((ids.map fun j => if j = i then 1 else g j).prod)
      = ∏ j in ids.toFinset.erase i, g j := by
  rw [← List.prod_toFinset _ hnd]
  by_cases hi : i ∈ ids.toFinset
  · rw [← Finset.mul_prod_erase _ _ hi, if_pos rfl, one_mul]
    exact Finset.prod_congr rfl fun j hj => if_neg (Finset.mem_erase.mp hj).1
  · rw [Finset.erase_eq_of_not_mem hi]
    exact Finset.prod_congr rfl fun j hj => if_neg fun h : j = i => hi (h ▸ hj)

/-- On pairwise-distinct ids bounded by `n < curve_order`, `lagrange_coefficient`
succeeds and returns the canonical representative of
`Π_{j ∈ ids, j ≠ i} j / (j - i)` in the scalar field. -/
theorem lagrange_coefficient_spec (i : ℤ) (ids : List ℤ) (n : ℕ)
    (hn : n < curve_order) (hnd : ids.Nodup)
    (hmem : ∀ j ∈ ids, 1 ≤ j ∧ j ≤ (n : ℤ)) (hi : i ∈ ids) :
    ∃ c, lagrange_coefficient i ids = some c ∧ 0 ≤ c ∧ c < (curve_order : ℤ) ∧
      (c : ZMod curve_order)
        = ∏ j in ids.toFinset.erase i,
            (j : ZMod curve_order)
              * ((j : ZMod curve_order) - (i : ZMod curve_order))⁻¹ := by
  have hqpos : (0 : ℤ) < (curve_order : ℤ) := by exact_mod_cast curve_order_pos
  have hne_cast : ∀ j ∈ ids, j ≠ i →
      (j : ZMod curve_order) - (i : ZMod curve_order) ≠ 0 := by
    intro j hjmem hjne
    rw [sub_ne_zero]
    apply intCast_curve_ne hjne
    have h1 := hmem j hjmem
    have h2 := hmem i hi
    have : (n : ℤ) < (curve_order : ℤ) := by exact_mod_cast hn
    rw [abs_lt]
    omega
  have hfold := lagrange_fold_cast i ids 1 1
  set nd := ids.foldl (lagrange_step i) (1, 1) with hnd_def
  have hden : ((nd.2 : ℤ) : ZMod curve_order)
      = ((ids.map fun j =>
          if j = i then 1
          else (j : ZMod curve_order) - (i : ZMod curve_order))).prod := by
    rw [hfold.2, Int.cast_one, one_mul]
  have hdenne : ((nd.2 : ℤ) : ZMod curve_order) ≠ 0 := by
    rw [hden]
    apply List.prod_ne_zero
    intro h0
    rcases List.mem_map.mp h0 with ⟨j, hjmem, hj0⟩
    by_cases hj : j = i
    · rw [if_pos hj] at hj0
      exact one_ne_zero hj0
    · rw [if_neg hj] at hj0
      exact hne_cast j hjmem hj hj0
  obtain ⟨d, hd, hd0, hdlt, hdcast⟩ := mod_inv_spec nd.2 hdenne
  refine ⟨nd.1 * d % (curve_order : ℤ), ?_, Int.emod_nonneg _ (by omega),
    Int.emod_lt_of_pos _ hqpos, ?_⟩
  · rw [lagrange_coefficient, ← hnd_def, hd]
    rfl
  · rw [intCast_emod_curve]
    push_cast
    rw [hfold.1, Int.cast_one, one_mul, hdcast, hden]
    rw [list_if_prod_toFinset ids hnd i, list_if_prod_toFinset ids hnd i,
      ← Finset.prod_inv_distrib, ← Finset.prod_mul_distrib]

/-! ## Characterizing `evaluate_polynomial` over the scalar field -/

theorem evaluate_fold_cast (x : ℤ) : ∀ (poly : List ℤ) (m : ℕ) (acc : ℤ),
    (((List.enumFrom m poly).foldl
        (fun result ic =>
          (result + ic.2 * (x ^ ic.1 % (curve_order : ℤ)) % (curve_order : ℤ))
            % (curve_order : ℤ)) acc : ℤ) : ZMod curve_order)
      = (acc : ZMod curve_order)
        + ∑ k in Finset.range poly.length,
            ((poly.getD k 0 : ℤ) : ZMod curve_order)
              * (x : ZMod curve_order) ^ (m + k) := by
  intro poly
  induction poly with
  | nil => intro m acc; simp
  | cons c rest ih =>
    intro m acc
    rw [show List.enumFrom m (c :: rest) = (m, c) :: List.enumFrom (m + 1) rest from rfl,
      List.foldl_cons]
    rw [ih (m + 1) _]
    have hacc : (((acc + c * (x ^ m % (curve_order : ℤ)) % (curve_order : ℤ))
        % (curve_order : ℤ) : ℤ) : ZMod curve_order)
        = (acc : ZMod curve_order)
          + (c : ZMod curve_order) * (x : ZMod curve_order) ^ m := by
      rw [intCast_emod_curve, Int.cast_add, intCast_emod_curve, Int.cast_mul,
        intCast_emod_curve, Int.cast_pow]
    rw [hacc]
    have hlen : (c :: rest).length = rest.length + 1 := rfl
    rw [hlen, Finset.sum_range_succ']
    have hshift : ∀ k, ((c :: rest).getD (k + 1) 0 : ℤ) = (rest.getD k 0 : ℤ) := by
      intro k; rfl
    have hsum : ∑ k in Finset.range rest.length,
        (((c :: rest).getD (k + 1) 0 : ℤ) : ZMod curve_order)
          * (x : ZMod curve_order) ^ (m + (k + 1))
        = ∑ k in Finset.range rest.length,
          ((rest.getD k 0 : ℤ) : ZMod curve_order)
            * (x : ZMod curve_order) ^ (m + 1 + k) := by
      apply Finset.sum_congr rfl
      intro k _
      rw [hshift k, show m + (k + 1) = m + 1 + k by omega]
    rw [hsum]
    have h0 : ((c :: rest).getD 0 0 : ℤ) = c := rfl
    rw [h0, add_zero]
    ring

theorem eval_fold_bounds (x : ℤ) (l : List (ℕ × ℤ)) :
    ∀ acc : ℤ, 0 ≤ acc → acc < (curve_order : ℤ) →
    0 ≤ l.foldl
        (fun result ic =>
          (result + ic.2 * (x ^ ic.1 % (curve_order : ℤ)) % (curve_order : ℤ))
            % (curve_order : ℤ)) acc
    ∧ l.foldl
        (fun result ic =>
          (result + ic.2 * (x ^ ic.1 % (curve_order : ℤ)) % (curve_order : ℤ))
            % (curve_order : ℤ)) acc < (curve_order : ℤ) := by
  have hqpos : (0 : ℤ) < (curve_order : ℤ) := by exact_mod_cast curve_order_pos
  induction l with
  | nil => intro acc h0 h1; exact ⟨h0, h1⟩
  | cons p rest ih =>
    intro acc _ _
    rw [List.foldl_cons]
    exact ih _ (Int.emod_nonneg _ (by omega)) (Int.emod_lt_of_pos _ hqpos)

theorem evaluate_polynomial_cast (poly : List ℤ) (x : ℤ) :
    ((evaluate_polynomial poly x : ℤ) : ZMod curve_order)
      = ∑ k in Finset.range poly.length,
          ((poly.getD k 0 : ℤ) : ZMod curve_order) * (x : ZMod curve_order) ^ k := by
  have h := evaluate_fold_cast x poly 0 0
  simpa [evaluate_polynomial, List.enum] using h

theorem evaluate_polynomial_bounds (poly : List ℤ) (x : ℤ) :
    0 ≤ evaluate_polynomial poly x ∧
      evaluate_polynomial poly x < (curve_order : ℤ) := by
  have hqpos : (0 : ℤ) < (curve_order : ℤ) := by exact_mod_cast curve_order_pos
  exact eval_fold_bounds x poly.enum 0 le_rfl hqpos

/-! ## Lagrange interpolation at zero over the scalar field -/

theorem sum_C_mul_X_pow_eval (L : ℕ) (g : ℕ → ZMod curve_order)
    (z : ZMod curve_order) :
    (∑ k in Finset.range L, Polynomial.C (g k) * Polynomial.X ^ k).eval z
      = ∑ k in Finset.range L, g k * z ^ k := by
  rw [Polynomial.eval_finset_sum]
  apply Finset.sum_congr rfl
  intro k _
  rw [Polynomial.eval_mul, Polynomial.eval_C, Polynomial.eval_pow, Polynomial.eval_X]

theorem sum_C_mul_X_pow_degree_lt (L : ℕ) (g : ℕ → ZMod curve_order) :
    (∑ k in Finset.range L, Polynomial.C (g k) * Polynomial.X ^ k).degree
      < (L : WithBot ℕ) := by
  apply lt_of_le_of_lt (Polynomial.degree_sum_le _ _)
  rw [Finset.sup_lt_iff (by exact_mod_cast WithBot.bot_lt_coe L)]
  intro k hk
  exact lt_of_le_of_lt (Polynomial.degree_C_mul_X_pow_le k _)
    (by exact_mod_cast Finset.mem_range.mp hk)

theorem sum_C_mul_X_pow_eval_zero (L : ℕ) (hL : 0 < L) (g : ℕ → ZMod curve_order) :
    (∑ k in Finset.range L, Polynomial.C (g k) * Polynomial.X ^ k).eval 0 = g 0 := by
  rw [sum_C_mul_X_pow_eval]
  rw [Finset.sum_eq_single 0]
  · rw [pow_zero, mul_one]
  · intro k _ hkne
    rw [zero_pow hkne, mul_zero]
  · intro h0
    exact absurd (Finset.mem_range.mpr hL) h0

theorem basis_eval_zero (S : Finset ℤ) (i : ℤ) :
    (Lagrange.basis S (fun j : ℤ => (j : ZMod curve_order)) i).eval 0
      = ∏ j in S.erase i,
          (j : ZMod curve_order)
            * ((j : ZMod curve_order) - (i : ZMod curve_order))⁻¹ := by
  rw [Lagrange.basis, Polynomial.eval_prod]
  apply Finset.prod_congr rfl
  intro j _
  simp only [Lagrange.basisDivisor]
  rw [Polynomial.eval_mul, Polynomial.eval_C, Polynomial.eval_sub,
    Polynomial.eval_X, Polynomial.eval_C, zero_sub]
  have hinv : ((i : ZMod curve_order) - (j : ZMod curve_order))⁻¹
      = -(((j : ZMod curve_order) - (i : ZMod curve_order))⁻¹) := by
    rw [← inv_neg, neg_sub]
  rw [hinv]
  ring

theorem intCast_injOn_of_bounded (S : Finset ℤ) (n : ℕ) (hn : n < curve_order)
    (hmem : ∀ j ∈ S, 1 ≤ j ∧ j ≤ (n : ℤ)) :
    Set.InjOn (fun j : ℤ => (j : ZMod curve_order)) S := by
  intro a ha b hb hab
  by_contra hne
  have ha' := hmem a (Finset.mem_coe.mp ha)
  have hb' := hmem b (Finset.mem_coe.mp hb)
  have hnq : (n : ℤ) < (curve_order : ℤ) := by exact_mod_cast hn
  exact intCast_curve_ne hne (by rw [abs_lt]; omega) hab

/-- Evaluating the interpolation identity at `0`: the canonical
Lagrange-weighted sum of the values of a low-degree polynomial recovers its
value at zero. -/
theorem lagrange_eval_zero_sum (S : Finset ℤ)
    (hinj : Set.InjOn (fun j : ℤ => (j : ZMod curve_order)) S)
    (f : Polynomial (ZMod curve_order)) (hdeg : f.degree < S.card) :
    ∑ i in S,
        (∏ j in S.erase i,
          (j : ZMod curve_order)
            * ((j : ZMod curve_order) - (i : ZMod curve_order))⁻¹)
          * f.eval (i : ZMod curve_order)
      = f.eval 0 := by
  have h := Lagrange.eq_interpolate hinj hdeg
  conv_rhs => rw [h]
  rw [Lagrange.interpolate_apply, Polynomial.eval_finset_sum]
  apply Finset.sum_congr rfl
  intro i _
  rw [Polynomial.eval_mul, Polynomial.eval_C, basis_eval_zero]
  ring

/-! ## The reconstruction loop computes the Lagrange-weighted sum -/

theorem reconstruct_foldM_eq (ids0 : List ℤ) (share coefFn : ℤ → ℤ) :
    ∀ ids : List ℤ, (∀ i ∈ ids, lagrange_coefficient i ids0 = some (coefFn i)) →
    ∀ acc : ℤ,
    ids.foldlM
        (fun acc i =>
          (lagrange_coefficient i ids0).map fun coeff =>
            (acc + coeff * share i % (curve_order : ℤ)) % (curve_order : ℤ)) acc
      = some (ids.foldl
          (fun acc i =>
            (acc + coefFn i * share i % (curve_order : ℤ)) % (curve_order : ℤ))
          acc) := by
  intro ids
  induction ids with
  | nil => intro _ acc; rfl
  | cons i rest ih =>
    intro hc acc
    rw [List.foldlM_cons, hc i (List.mem_cons_self i rest)]
    simp only [Option.map_some', Option.bind_eq_bind, Option.some_bind]
    rw [ih (fun j hj => hc j (List.mem_cons_of_mem i hj)) _, List.foldl_cons]

theorem reconstruct_fold_cast (share coefFn : ℤ → ℤ) (ids : List ℤ) :
    ∀ acc : ℤ,
    ((ids.foldl
        (fun acc i =>
          (acc + coefFn i * share i % (curve_order : ℤ)) % (curve_order : ℤ))
        acc : ℤ) : ZMod curve_order)
      = (acc : ZMod curve_order)
        + ((ids.map fun i =>
            (coefFn i : ZMod curve_order) * (share i : ZMod curve_order))).sum := by
  induction ids with
  | nil => intro acc; simp
  | cons i rest ih =>
    intro acc
    rw [List.foldl_cons, ih, List.map_cons, List.sum_cons,
      intCast_emod_curve, Int.cast_add, intCast_emod_curve, Int.cast_mul]
    ring

theorem reconstruct_fold_bounds (share coefFn : ℤ → ℤ) (ids : List ℤ) :
    ∀ acc : ℤ, 0 ≤ acc → acc < (curve_order : ℤ) →
    0 ≤ ids.foldl
        (fun acc i =>
          (acc + coefFn i * share i % (curve_order : ℤ)) % (curve_order : ℤ)) acc
    ∧ ids.foldl
        (fun acc i =>
          (acc + coefFn i * share i % (curve_order : ℤ)) % (curve_order : ℤ)) acc
      < (curve_order : ℤ) := by
  have hqpos : (0 : ℤ) < (curve_order : ℤ) := by exact_mod_cast curve_order_pos
  induction ids with
  | nil => intro acc h0 h1; exact ⟨h0, h1⟩
  | cons i rest ih =>
    intro acc _ _
    rw [List.foldl_cons]
    exact ih _ (Int.emod_nonneg _ (by omega)) (Int.emod_lt_of_pos _ hqpos)

/-- Shamir reconstruction, the shared core result: for any duplicate-free list
of ids drawn from `[1, n]` with `n < curve_order`, of length at least
`coefs.length + 1`, the reconstruction loop recovers exactly the secret used as
the polynomial's constant term. -/
theorem reconstruct_secret_eq (n : ℕ) (hn : n < curve_order)
    (s : ℤ) (hs0 : 0 ≤ s) (hs : s < (curve_order : ℤ))
    (coefs : List ℤ) (ids : List ℤ) (hnd : ids.Nodup)
    (hmem : ∀ j ∈ ids, 1 ≤ j ∧ j ≤ (n : ℤ))
    (hlen : coefs.length + 1 ≤ ids.length) :
    reconstruct_secret ids
      (evaluate_polynomial (generate_polynomial coefs s)) = some s := by
  classical
  set share := evaluate_polynomial (generate_polynomial coefs s) with hshare
  have hspec := fun i hi => lagrange_coefficient_spec i ids n hn hnd hmem hi
  set coefFn : ℤ → ℤ := fun i => (lagrange_coefficient i ids).getD 0 with hcoefFn
  have hsome : ∀ i ∈ ids, lagrange_coefficient i ids = some (coefFn i) := by
    intro i hi
    obtain ⟨c, hc, -, -, -⟩ := hspec i hi
    rw [hc, hcoefFn]
    simp [hc]
  have hcast : ∀ i ∈ ids, (coefFn i : ZMod curve_order)
      = ∏ j in ids.toFinset.erase i,
          (j : ZMod curve_order)
            * ((j : ZMod curve_order) - (i : ZMod curve_order))⁻¹ := by
    intro i hi
    obtain ⟨c, hc, -, -, hcc⟩ := hspec i hi
    have hce : coefFn i = c := by rw [hcoefFn]; simp [hc]
    rw [hce]
    exact hcc
  rw [reconstruct_secret, reconstruct_foldM_eq ids share coefFn ids hsome 0]
  have hqpos : (0 : ℤ) < (curve_order : ℤ) := by exact_mod_cast curve_order_pos
  have hbounds := reconstruct_fold_bounds share coefFn ids 0 le_rfl hqpos
  have hrcast := reconstruct_fold_cast share coefFn ids 0
  set r := ids.foldl
      (fun acc i =>
        (acc + coefFn i * share i % (curve_order : ℤ)) % (curve_order : ℤ)) 0
    with hr
  set L := coefs.length + 1 with hL
  set g : ℕ → ZMod curve_order :=
    fun k => (((generate_polynomial coefs s).getD k 0 : ℤ) : ZMod curve_order)
    with hg
  have hpolylen : (generate_polynomial coefs s).length = L := rfl
  have hpolyeval : ∀ i : ℤ, ((share i : ℤ) : ZMod curve_order)
      = (∑ k in Finset.range L,
          Polynomial.C (g k) * Polynomial.X ^ k).eval (i : ZMod curve_order) := by
    intro i
    rw [sum_C_mul_X_pow_eval, hshare, evaluate_polynomial_cast, hpolylen]
  have hinj := intCast_injOn_of_bounded ids.toFinset n hn
    (fun j hj => hmem j (List.mem_toFinset.mp hj))
  have hcard : ids.toFinset.card = ids.length := List.toFinset_card_of_nodup hnd
  have hdeg : (∑ k in Finset.range L,
      Polynomial.C (g k) * Polynomial.X ^ k).degree
      < ((ids.toFinset.card : ℕ) : WithBot ℕ) := by
    apply lt_of_lt_of_le (sum_C_mul_X_pow_degree_lt L g)
    rw [hcard]
    exact_mod_cast hlen
  have hmain : (r : ZMod curve_order) = (s : ZMod curve_order) := by
    rw [hrcast, Int.cast_zero, zero_add, ← List.sum_toFinset _ hnd]
    have hterm : ∀ i ∈ ids.toFinset,
        (coefFn i : ZMod curve_order) * ((share i : ℤ) : ZMod curve_order)
          = (∏ j in ids.toFinset.erase i,
              (j : ZMod curve_order)
                * ((j : ZMod curve_order) - (i : ZMod curve_order))⁻¹)
            * (∑ k in Finset.range L,
                Polynomial.C (g k) * Polynomial.X ^ k).eval (i : ZMod curve_order) := by
      intro i hi
      rw [hcast i (List.mem_toFinset.mp hi), hpolyeval i]
    rw [Finset.sum_congr rfl hterm, lagrange_eval_zero_sum ids.toFinset hinj _ hdeg,
      sum_C_mul_X_pow_eval_zero L (by omega) g]
    rfl
  have := intCast_curve_inj hbounds.1 hbounds.2 hs0 hs hmain
  rw [this]

/-! ## Claims C1 and C9 -/

/-- C1: for every valid configuration `(n, t)` with `1 ≤ t ≤ n` (ids live below
the scalar-field order), every secret in the scalar field, every polynomial
with constant term the secret and degree `t - 1` as built by
`generate_polynomial`, and every duplicate-free choice of exactly `t`
participant ids from `{1..n}`: the sum of
`lagrange_coefficient i ids * evaluate_polynomial poly i` over the ids, reduced
mod `curve_order` exactly as in the source's reconstruction loop, recovers the
master secret. -/
theorem C1_lagrange_interpolation_recovers_secret
    (n t : ℕ) (ht : 1 ≤ t) (htn : t ≤ n) (hn : n < curve_order)
    (s : ℤ) (hs0 : 0 ≤ s) (hs : s < (curve_order : ℤ))
    (coefs : List ℤ) (hclen : coefs.length = t - 1)
    (hcmem : ∀ c ∈ coefs, 0 ≤ c ∧ c < (curve_order : ℤ))
    (ids : List ℤ) (hnd : ids.Nodup) (hlen : ids.length = t)
    (hmem : ∀ j ∈ ids, 1 ≤ j ∧ j ≤ (n : ℤ)) :
    reconstruct_secret ids
      (evaluate_polynomial (generate_polynomial coefs s)) = some s := by
  apply reconstruct_secret_eq n hn s hs0 hs coefs ids hnd hmem
  omega

/-- Witness for C1 at the concrete input `n = 3`, `t = 2`, secret `5`,
polynomial `[5, 7]`, id subset `{1, 3}`. -/
theorem C1_lagrange_interpolation_recovers_secret_witness :
    (1 ≤ 2 ∧ 2 ≤ 3 ∧ 3 < curve_order ∧ (0 : ℤ) ≤ 5 ∧ (5 : ℤ) < (curve_order : ℤ)
      ∧ ([(7 : ℤ)].length = 2 - 1) ∧ ([(1 : ℤ), 3].Nodup ∧ [(1 : ℤ), 3].length = 2))
    ∧ reconstruct_secret [(1 : ℤ), 3]
        (evaluate_polynomial (generate_polynomial [(7 : ℤ)] 5)) = some 5 :=
  ⟨by refine ⟨by norm_num, by norm_num, by decide, by norm_num, ?_, by decide, by decide, by decide⟩
      exact_mod_cast (by decide : (5 : ℤ) < ((curve_order : ℕ) : ℤ)),
   C1_lagrange_interpolation_recovers_secret 3 2 (by norm_num) (by norm_num) (by decide)
      5 (by norm_num) (by exact_mod_cast (by decide : (5 : ℤ) < ((curve_order : ℕ) : ℤ)))
      [7] (by decide) (by decide)
      [1, 3] (by decide) (by decide) (by decide)⟩

/-- C9: under the implicit precondition — pairwise-distinct ids drawn from
`{1..n}` with `n` far below `curve_order`, containing `i` — the accumulated
denominator in `lagrange_coefficient` is invertible, so `mod_inv` never fails
and the coefficient is always returned (a value in `[0, curve_order)`). -/
theorem C9_lagrange_coefficient_total
    (i : ℤ) (ids : List ℤ) (n : ℕ) (hn : n < curve_order) (hnd : ids.Nodup)
    (hmem : ∀ j ∈ ids, 1 ≤ j ∧ j ≤ (n : ℤ)) (hi : i ∈ ids) :
    ∃ c, lagrange_coefficient i ids = some c ∧ 0 ≤ c ∧ c < (curve_order : ℤ) := by
  obtain ⟨c, h1, h2, h3, -⟩ := lagrange_coefficient_spec i ids n hn hnd hmem hi
  exact ⟨c, h1, h2, h3⟩

/-- Witness for C9 at the concrete input `i = 2`, `ids = [1, 2, 3]`, `n = 3`. -/
theorem C9_lagrange_coefficient_total_witness :
    (3 < curve_order ∧ [(1 : ℤ), 2, 3].Nodup ∧ (2 : ℤ) ∈ [(1 : ℤ), 2, 3])
    ∧ ∃ c, lagrange_coefficient 2 [(1 : ℤ), 2, 3] = some c ∧ 0 ≤ c
        ∧ c < (curve_order : ℤ) :=
  ⟨⟨by decide, by decide, by decide⟩,
   C9_lagrange_coefficient_total 2 [1, 2, 3] 3 (by decide) (by decide)
      (by decide) (by decide)⟩

/-! ## Byte-string models (`int.to_bytes` / `int.from_bytes`) -/

/-- Big-endian byte list of `x` in exactly `L` bytes (the digits of Python's
`int.to_bytes(L, "big")`). -/
def natToBytesBE : ℕ → ℕ → List ℕ
  | 0, _ => []
  | L + 1, x => natToBytesBE L (x / 256) ++ [x % 256]

/-- Model of Python `int.to_bytes(L, "big")`: `none` models the
`OverflowError` raised when the integer does not fit in `L` bytes. -/
def int_to_bytes (L : ℕ) (x : ℕ) : Option (List ℕ) :=
  if x < 2 ^ (8 * L) then some (natToBytesBE L x) else none

/-- Model of Python `int.from_bytes(b, "big")`. -/
def int_from_bytes (b : List ℕ) : ℕ :=
  b.foldl (fun acc d => acc * 256 + d) 0

theorem natToBytesBE_length : ∀ L x : ℕ, (natToBytesBE L x).length = L := by
  intro L
  induction L with
  | zero => intro x; rfl
  | succ L ih =>
    intro x
    rw [natToBytesBE, List.length_append, ih]
    rfl

theorem int_to_bytes_length (L x : ℕ) (b : List ℕ) (h : int_to_bytes L x = some b) :
    b.length = L := by
  rw [int_to_bytes] at h
  by_cases hx : x < 2 ^ (8 * L)
  · rw [if_pos hx] at h
    rw [← Option.some_inj.mp h, natToBytesBE_length]
  · rw [if_neg hx] at h
    exact absurd h (by simp)

theorem int_to_bytes_some (L x : ℕ) (h : x < 2 ^ (8 * L)) :
    int_to_bytes L x = some (natToBytesBE L x) := by
  rw [int_to_bytes, if_pos h]

theorem int_from_to_bytes : ∀ L x : ℕ, x < 2 ^ (8 * L) →
    int_from_bytes (natToBytesBE L x) = x := by
  intro L
  induction L with
  | zero =>
    intro x hx
    have : x = 0 := by omega
    simp [this, natToBytesBE, int_from_bytes]
  | succ L ih =>
    intro x hx
    have hdiv : x / 256 < 2 ^ (8 * L) := by
      have h2 : (2 : ℕ) ^ (8 * (L + 1)) = 256 * 2 ^ (8 * L) := by ring
      exact Nat.div_lt_of_lt_mul (h2 ▸ hx)
    rw [natToBytesBE, int_from_bytes, List.foldl_append]
    have hfront : List.foldl (fun acc d => acc * 256 + d) 0 (natToBytesBE L (x / 256))
        = x / 256 := ih (x / 256) hdiv
    rw [hfront]
    show x / 256 * 256 + x % 256 = x
    omega

/-! ## `mapM` over `Option` -/

theorem mapM_option_of_forall {α β : Type} (f : α → Option β) (g : α → β) :
    ∀ l : List α, (∀ a ∈ l, f a = some (g a)) → l.mapM f = some (l.map g) := by
  intro l
  induction l with
  | nil => intro _; rfl
  | cons a rest ih =>
    intro h
    rw [List.mapM_cons, h a (List.mem_cons_self a rest),
      ih (fun b hb => h b (List.mem_cons_of_mem a hb))]
    rfl

theorem mapM_option_forall2 {α β : Type} (f : α → Option β) :
    ∀ (l : List α) (ys : List β), l.mapM f = some ys →
      List.Forall₂ (fun a y => f a = some y) l ys := by
  intro l
  induction l with
  | nil =>
    intro ys h
    have : ys = [] := by
      have : (some [] : Option (List β)) = some ys := h
      exact (Option.some_inj.mp this).symm
    rw [this]
    exact List.Forall₂.nil
  | cons a rest ih =>
    intro ys h
    rw [List.mapM_cons] at h
    simp only [Option.bind_eq_bind] at h
    rcases Option.bind_eq_some.mp h with ⟨y, hy, h2⟩
    rcases Option.bind_eq_some.mp h2 with ⟨ys', hys', h3⟩
    have : y :: ys' = ys := Option.some_inj.mp h3
    rw [← this]
    exact List.Forall₂.cons hy (ih ys' hys')

/-! ## `generate_threshold_keys` -/

/-- The value returned by `generate_threshold_keys`, together with the
self-check outcome the function prints (`reconstruction_success`). -/
structure KeyGenResult where
  private_keys : List (ℤ × List ℕ)
  public_keys : List (ℤ × List ℕ)
  group_public_key : List ℕ
  reconstruction_success : Bool

/-- `generate_threshold_keys` from `threshold_signing.py`, embedded over an
abstract model of the `py_ecc` G1 group: `multG1 s` stands for
`multiply(G1, s)` and `compressG1` for `compress_G1`, whose output
`G1_to_pubkey` serializes with `to_bytes(48, "big")`.  The master secret and
the `t - 1` draws of `secrets.randbelow` are explicit inputs; `none` models an
uncaught Python exception.  The function computes the reconstruction
self-check from the private-key bytes and returns the key material
unconditionally (the check's outcome is only printed, here recorded in
`reconstruction_success`). -/
def generate_threshold_keys (P : Type) (multG1 : ℤ → P) (compressG1 : P → ℕ)
    (n t : ℕ) (master_secret : ℤ) (coefs : List ℤ) : Option KeyGenResult := do
  let polynomial := generate_polynomial coefs master_secret
  let server_ids := (List.range n).map (fun k : ℕ => (k : ℤ) + 1)
  let private_keys ← server_ids.mapM (fun sid =>
    (int_to_bytes 32 (evaluate_polynomial polynomial sid).toNat).map
      (fun b => (sid, b)))
  let public_keys ← server_ids.mapM (fun sid =>
    (int_to_bytes 48 (compressG1 (multG1 (evaluate_polynomial polynomial sid)))).map
      (fun b => (sid, b)))
  let group_public_key ← int_to_bytes 48 (compressG1 (multG1 master_secret))
  let test_indices := (List.range t).map (fun k : ℕ => (k : ℤ) + 1)
  let reconstructed ← reconstruct_secret test_indices
    (fun i => (int_from_bytes ((private_keys.lookup i).getD []) : ℤ))
  pure { private_keys := private_keys, public_keys := public_keys,
         group_public_key := group_public_key,
         reconstruction_success := reconstructed == master_secret }

theorem curve_order_lt_2_256 : curve_order < 2 ^ 256 := by decide

theorem reconstruct_secret_congr (ids : List ℤ) (f g : ℤ → ℤ)
    (h : ∀ i ∈ ids, f i = g i) :
    reconstruct_secret ids f = reconstruct_secret ids g := by
  rw [reconstruct_secret, reconstruct_secret]
  have aux : ∀ (l : List ℤ), (∀ i ∈ l, f i = g i) → ∀ acc : ℤ,
      l.foldlM (fun acc i => (lagrange_coefficient i ids).map fun coeff =>
        (acc + coeff * f i % (curve_order : ℤ)) % (curve_order : ℤ)) acc
      = l.foldlM (fun acc i => (lagrange_coefficient i ids).map fun coeff =>
        (acc + coeff * g i % (curve_order : ℤ)) % (curve_order : ℤ)) acc := by
    intro l
    induction l with
    | nil => intro _ acc; rfl
    | cons i rest ih =>
      intro hl acc
      rw [List.foldlM_cons, List.foldlM_cons, hl i (List.mem_cons_self i rest)]
      cases lagrange_coefficient i ids with
      | none => rfl
      | some c =>
        simp only [Option.map_some', Option.bind_eq_bind, Option.some_bind]
        exact ih (fun j hj => hl j (List.mem_cons_of_mem i hj)) _
  exact aux ids h 0

theorem lookup_map_self (l : List ℤ) (h : ℤ → List ℕ) (i : ℤ) (hi : i ∈ l) :
    (l.map (fun a => (a, h a))).lookup i = some (h i) := by
  induction l with
  | nil => exact absurd hi (List.not_mem_nil i)
  | cons a rest ih =>
    rw [List.map_cons]
    by_cases hia : i = a
    · subst hia
      simp [List.lookup]
    · have hb : (i == a) = false := beq_eq_false_iff_ne.mpr hia
      simp only [List.lookup, hb]
      exact ih ((List.mem_cons.mp hi).resolve_left hia)

theorem keygen_priv_mapM (n : ℕ) (s : ℤ) (coefs : List ℤ) :
    ((List.range n).map (fun k : ℕ => (k : ℤ) + 1)).mapM
      (fun sid =>
        (int_to_bytes 32
          (evaluate_polynomial (generate_polynomial coefs s) sid).toNat).map
          (fun b => (sid, b)))
    = some (((List.range n).map (fun k : ℕ => (k : ℤ) + 1)).map
        (fun sid => (sid, natToBytesBE 32
          (evaluate_polynomial (generate_polynomial coefs s) sid).toNat))) := by
  apply mapM_option_of_forall
  intro sid _
  have hb := evaluate_polynomial_bounds (generate_polynomial coefs s) sid
  have hq2 := curve_order_lt_2_256
  have hlt1 : (evaluate_polynomial (generate_polynomial coefs s) sid).toNat
      < curve_order := by omega
  have hlt : (evaluate_polynomial (generate_polynomial coefs s) sid).toNat
      < 2 ^ (8 * 32) := by
    have h256 : (2 : ℕ) ^ (8 * 32) = 2 ^ 256 := by norm_num
    omega
  rw [int_to_bytes_some 32 _ hlt]
  rfl

theorem generate_threshold_keys_inv (P : Type) (multG1 : ℤ → P)
    (compressG1 : P → ℕ) (n t : ℕ) (s : ℤ) (coefs : List ℤ)
    (out : KeyGenResult)
    (h : generate_threshold_keys P multG1 compressG1 n t s coefs = some out) :
    ∃ pubs gpk r,
      ((List.range n).map (fun k : ℕ => (k : ℤ) + 1)).mapM
          (fun sid => (int_to_bytes 48
            (compressG1 (multG1
              (evaluate_polynomial (generate_polynomial coefs s) sid)))).map
            (fun b => (sid, b))) = some pubs
      ∧ int_to_bytes 48 (compressG1 (multG1 s)) = some gpk
      ∧ reconstruct_secret ((List.range t).map (fun k : ℕ => (k : ℤ) + 1))
          (fun i => (int_from_bytes
            ((((((List.range n).map (fun k : ℕ => (k : ℤ) + 1)).map
              (fun sid => (sid, natToBytesBE 32
                (evaluate_polynomial
                  (generate_polynomial coefs s) sid).toNat))).lookup i).getD []))
            : ℤ)) = some r
      ∧ out = { private_keys := ((List.range n).map (fun k : ℕ => (k : ℤ) + 1)).map
                  (fun sid => (sid, natToBytesBE 32
                    (evaluate_polynomial (generate_polynomial coefs s) sid).toNat)),
                public_keys := pubs, group_public_key := gpk,
                reconstruction_success := r == s } := by
  simp only [generate_threshold_keys] at h
  rw [keygen_priv_mapM n s coefs] at h
  simp only [Option.bind_eq_bind, Option.some_bind] at h
  rcases Option.bind_eq_some.mp h with ⟨pubs, hpubs, h⟩
  rcases Option.bind_eq_some.mp h with ⟨gpk, hgpk, h⟩
  rcases Option.bind_eq_some.mp h with ⟨r, hrec, h⟩
  refine ⟨pubs, gpk, r, hpubs, hgpk, hrec, ?_⟩
  have : some _ = some out := h
  exact (Option.some_inj.mp this).symm

theorem keyMapM_facts (l : List ℤ) (c : ℤ → ℕ) (L : ℕ)
    (ys : List (ℤ × List ℕ))
    (h : l.mapM (fun sid => (int_to_bytes L (c sid)).map (fun b => (sid, b)))
      = some ys) :
    ys.map Prod.fst = l ∧ ∀ y ∈ ys, y.2.length = L := by
  have h2 := mapM_option_forall2 _ l ys h
  clear h
  induction h2 with
  | nil => exact ⟨rfl, by intro y hy; exact absurd hy (List.not_mem_nil y)⟩
  | @cons a y l' ys' ha _ ih =>
    rcases Option.map_eq_some'.mp ha with ⟨b, hb, hyb⟩
    constructor
    · rw [List.map_cons, ih.1, ← hyb]
    · intro z hz
      rcases List.mem_cons.mp hz with rfl | hz'
      · rw [← hyb]
        exact int_to_bytes_length L (c a) b hb
      · exact ih.2 z hz'

/-! ## Claims C7 and C10 -/

theorem keygen_share_lookup (n t : ℕ) (htn : t ≤ n) (s : ℤ) (coefs : List ℤ) :
    ∀ i ∈ (List.range t).map (fun k : ℕ => (k : ℤ) + 1),
      (int_from_bytes
        ((((((List.range n).map (fun k : ℕ => (k : ℤ) + 1)).map
          (fun sid => (sid, natToBytesBE 32
            (evaluate_polynomial (generate_polynomial coefs s) sid).toNat))).lookup i).getD []))
        : ℤ)
      = evaluate_polynomial (generate_polynomial coefs s) i := by
  intro i hi
  rcases List.mem_map.mp hi with ⟨k, hk, rfl⟩
  have hk' : k < t := List.mem_range.mp hk
  have hmem : ((k : ℤ) + 1) ∈ (List.range n).map (fun k : ℕ => (k : ℤ) + 1) :=
    List.mem_map.mpr ⟨k, List.mem_range.mpr (by omega), rfl⟩
  rw [lookup_map_self _ _ _ hmem, Option.getD_some]
  have hb := evaluate_polynomial_bounds (generate_polynomial coefs s) ((k : ℤ) + 1)
  have hq2 := curve_order_lt_2_256
  have hlt : (evaluate_polynomial (generate_polynomial coefs s) ((k : ℤ) + 1)).toNat
      < 2 ^ (8 * 32) := by
    have h256 : (2 : ℕ) ^ (8 * 32) = 2 ^ 256 := by norm_num
    omega
  rw [int_from_to_bytes 32 _ hlt]
  omega

/-- C7: `generate_threshold_keys` computes the reconstruction self-check
(Lagrange interpolation over the first `t` shares, read back from the
private-key bytes) before returning, and the key material it returns always
carries a passing self-check: for every valid configuration and every
randomness, the returned `reconstruction_success` flag is `true`, so keys with
a failed self-check are never returned. -/
theorem C7_keygen_self_check_passes (P : Type) (multG1 : ℤ → P)
    (compressG1 : P → ℕ) (n t : ℕ) (ht : 1 ≤ t) (htn : t ≤ n)
    (hn : n < curve_order) (s : ℤ) (hs0 : 0 ≤ s) (hs : s < (curve_order : ℤ))
    (coefs : List ℤ) (hclen : coefs.length = t - 1) (out : KeyGenResult)
    (h : generate_threshold_keys P multG1 compressG1 n t s coefs = some out) :
    out.reconstruction_success = true := by
  obtain ⟨pubs, gpk, r, hpubs, hgpk, hrec, hout⟩ :=
    generate_threshold_keys_inv P multG1 compressG1 n t s coefs out h
  rw [reconstruct_secret_congr _ _ _ (keygen_share_lookup n t htn s coefs)] at hrec
  have hrec2 : reconstruct_secret ((List.range t).map (fun k : ℕ => (k : ℤ) + 1))
      (evaluate_polynomial (generate_polynomial coefs s)) = some s := by
    apply reconstruct_secret_eq n hn s hs0 hs coefs
    · exact (List.nodup_range t).map (fun a b hab => by omega)
    · intro j hj
      rcases List.mem_map.mp hj with ⟨k, hk, rfl⟩
      have := List.mem_range.mp hk
      constructor
      · omega
      · have : k < n := by omega
        omega
    · rw [List.length_map, List.length_range]
      omega
  have hr : r = s := Option.some_inj.mp (hrec.symm.trans hrec2)
  rw [hout]
  show (r == s) = true
  rw [hr]
  exact beq_self_eq_true s

/-- Witness for C7 at the concrete input `n = t = 1`, secret `0`, no random
coefficients, with the trivial G1 model. -/
theorem C7_keygen_self_check_passes_witness :
    (generate_threshold_keys Unit (fun _ => ()) (fun _ => 0) 1 1 0 []).map
      KeyGenResult.reconstruction_success = some true := by
  rcases hk : generate_threshold_keys Unit (fun _ => ()) (fun _ => 0) 1 1 0 []
    with _ | out
  · have hsome : (generate_threshold_keys Unit (fun _ => ()) (fun _ => 0)
        1 1 0 []).isSome = true := by decide
    rw [hk] at hsome
    exact absurd hsome (by decide)
  · rw [Option.map_some']
    rw [C7_keygen_self_check_passes Unit (fun _ => ()) (fun _ => 0) 1 1
      (by norm_num) (by norm_num) (by decide) 0 (by norm_num) (by decide)
      [] (by decide) out hk]

/-- C10: whenever `generate_threshold_keys` returns, the private-key and
public-key tables are keyed exactly by `1..n` in order, every private-key
value is exactly 32 bytes (the share in big-endian), and every public-key
value as well as the group public key is exactly 48 bytes (a compressed G1
point) — fixed sizes, not variable-length byte strings. -/
theorem C10_keygen_key_material_sizes (P : Type) (multG1 : ℤ → P)
    (compressG1 : P → ℕ) (n t : ℕ) (ht : 1 ≤ t) (htn : t ≤ n)
    (s : ℤ) (hs0 : 0 ≤ s) (hs : s < (curve_order : ℤ)) (coefs : List ℤ)
    (out : KeyGenResult)
    (h : generate_threshold_keys P multG1 compressG1 n t s coefs = some out) :
    out.private_keys.map Prod.fst = (List.range n).map (fun k : ℕ => (k : ℤ) + 1)
    ∧ (∀ p ∈ out.private_keys, p.2.length = 32)
    ∧ out.public_keys.map Prod.fst = (List.range n).map (fun k : ℕ => (k : ℤ) + 1)
    ∧ (∀ p ∈ out.public_keys, p.2.length = 48)
    ∧ out.group_public_key.length = 48 := by
  obtain ⟨pubs, gpk, r, hpubs, hgpk, hrec, hout⟩ :=
    generate_threshold_keys_inv P multG1 compressG1 n t s coefs out h
  have hpub := keyMapM_facts _ _ _ _ hpubs
  rw [hout]
  refine ⟨?_, ?_, hpub.1, hpub.2, int_to_bytes_length _ _ _ hgpk⟩
  · show (((List.range n).map (fun k : ℕ => (k : ℤ) + 1)).map _).map Prod.fst = _
    rw [List.map_map]
    show List.map (fun a => a) ((List.range n).map (fun k : ℕ => (k : ℤ) + 1))
      = (List.range n).map (fun k : ℕ => (k : ℤ) + 1)
    exact List.map_id' _
  · intro p hp
    rcases List.mem_map.mp hp with ⟨sid, _, rfl⟩
    exact natToBytesBE_length 32 _

/-- Witness for C10 at the concrete input `n = 2`, `t = 1`, secret `3`, with
the trivial G1 model. -/
theorem C10_keygen_key_material_sizes_witness :
    ∃ out, generate_threshold_keys Unit (fun _ => ()) (fun _ => 0) 2 1 3 []
        = some out
      ∧ (out.private_keys.map Prod.fst
          = (List.range 2).map (fun k : ℕ => (k : ℤ) + 1)
        ∧ (∀ p ∈ out.private_keys, p.2.length = 32)
        ∧ out.public_keys.map Prod.fst
          = (List.range 2).map (fun k : ℕ => (k : ℤ) + 1)
        ∧ (∀ p ∈ out.public_keys, p.2.length = 48)
        ∧ out.group_public_key.length = 48) := by
  rcases hk : generate_threshold_keys Unit (fun _ => ()) (fun _ => 0) 2 1 3 []
    with _ | out
  · have hsome : (generate_threshold_keys Unit (fun _ => ()) (fun _ => 0)
        2 1 3 []).isSome = true := by decide
    rw [hk] at hsome
    exact absurd hsome (by decide)
  · exact ⟨out, rfl, C10_keygen_key_material_sizes Unit (fun _ => ()) (fun _ => 0)
      2 1 (by norm_num) (by norm_num) 3 (by norm_num) (by decide) [] out hk⟩

/-! ## `combine_threshold_signatures` and subset invariance (C2) -/

/-- The Lagrange-weighted sum of the share values over any admissible id list
equals the secret in the scalar field. -/
theorem lagrange_sum_cast (n : ℕ) (hn : n < curve_order) (s : ℤ)
    (coefs : List ℤ) (ids : List ℤ) (hnd : ids.Nodup)
    (hmem : ∀ j ∈ ids, 1 ≤ j ∧ j ≤ (n : ℤ))
    (hlen : coefs.length + 1 ≤ ids.length)
    (coefFn : ℤ → ℤ)
    (hcoef : ∀ i ∈ ids, lagrange_coefficient i ids = some (coefFn i)) :
    (((ids.map (fun i => coefFn i
        * evaluate_polynomial (generate_polynomial coefs s) i)).sum : ℤ)
      : ZMod curve_order) = (s : ZMod curve_order) := by
  classical
  set share := evaluate_polynomial (generate_polynomial coefs s) with hshare
  have hspec := fun i hi => lagrange_coefficient_spec i ids n hn hnd hmem hi
  have hcast : ∀ i ∈ ids, (coefFn i : ZMod curve_order)
      = ∏ j in ids.toFinset.erase i,
          (j : ZMod curve_order)
            * ((j : ZMod curve_order) - (i : ZMod curve_order))⁻¹ := by
    intro i hi
    obtain ⟨c, hc, -, -, hcc⟩ := hspec i hi
    have : coefFn i = c := Option.some_inj.mp ((hcoef i hi).symm.trans hc)
    rw [this]
    exact hcc
  set L := coefs.length + 1 with hL
  set g : ℕ → ZMod curve_order :=
    fun k => (((generate_polynomial coefs s).getD k 0 : ℤ) : ZMod curve_order)
    with hg
  have hpolylen : (generate_polynomial coefs s).length = L := rfl
  have hpolyeval : ∀ i : ℤ, ((share i : ℤ) : ZMod curve_order)
      = (∑ k in Finset.range L,
          Polynomial.C (g k) * Polynomial.X ^ k).eval (i : ZMod curve_order) := by
    intro i
    rw [sum_C_mul_X_pow_eval, hshare, evaluate_polynomial_cast, hpolylen]
  have hinj := intCast_injOn_of_bounded ids.toFinset n hn
    (fun j hj => hmem j (List.mem_toFinset.mp hj))
  have hcard : ids.toFinset.card = ids.length := List.toFinset_card_of_nodup hnd
  have hdeg : (∑ k in Finset.range L,
      Polynomial.C (g k) * Polynomial.X ^ k).degree
      < ((ids.toFinset.card : ℕ) : WithBot ℕ) := by
    apply lt_of_lt_of_le (sum_C_mul_X_pow_degree_lt L g)
    rw [hcard]
    exact_mod_cast hlen
  have hlist : ((ids.map (fun i => coefFn i * share i)).sum : ℤ)
      = (ids.map (fun i => coefFn i * share i)).sum := rfl
  rw [Int.cast_list_sum, List.map_map]
  have hmapeq : (ids.map ((fun x : ℤ => (x : ZMod curve_order))
      ∘ fun i => coefFn i * share i))
      = ids.map (fun i =>
          (coefFn i : ZMod curve_order) * ((share i : ℤ) : ZMod curve_order)) := by
    apply List.map_congr_left
    intro a _
    show ((coefFn a * share a : ℤ) : ZMod curve_order) = _
    push_cast
    rfl
  rw [hmapeq, ← List.sum_toFinset _ hnd]
  have hterm : ∀ i ∈ ids.toFinset,
      (coefFn i : ZMod curve_order) * ((share i : ℤ) : ZMod curve_order)
        = (∏ j in ids.toFinset.erase i,
            (j : ZMod curve_order)
              * ((j : ZMod curve_order) - (i : ZMod curve_order))⁻¹)
          * (∑ k in Finset.range L,
              Polynomial.C (g k) * Polynomial.X ^ k).eval (i : ZMod curve_order) := by
    intro i hi
    rw [hcast i (List.mem_toFinset.mp hi), hpolyeval i]
  rw [Finset.sum_congr rfl hterm,
    lagrange_eval_zero_sum ids.toFinset hinj _ hdeg,
    sum_C_mul_X_pow_eval_zero L (by omega) g]
  rfl

/-- `combine_threshold_signatures` from `threshold_signing.py`, embedded
generically over the signature group: `G` stands for the subgroup of G2 in
which partial signatures live (`signature_to_G2` / `G2_to_signature` are
deterministic mutually-inverse serializations, so equality of the combined
points is byte-for-byte equality of the returned signatures), `•` models
`py_ecc`'s `multiply` and `+` its `add`.  The signatures arrive as an
association list in dict-insertion order; `none` models the two
`ValueError`s in the source. -/
def combine_threshold_signatures {G : Type} [AddCommGroup G] (t : ℕ)
    (psigs : List (ℤ × G)) : Option G :=
  if psigs.length < t then none
  else if psigs.isEmpty then none
  else
    psigs.foldlM
      (fun acc p =>
        (lagrange_coefficient p.1 (psigs.map Prod.fst)).map
          (fun c => acc + c • p.2)) (0 : G)

theorem combine_foldM_eq {G : Type} [AddCommGroup G] (ids0 : List ℤ)
    (coefFn : ℤ → ℤ) :
    ∀ l : List (ℤ × G),
      (∀ p ∈ l, lagrange_coefficient p.1 ids0 = some (coefFn p.1)) →
      ∀ acc : G,
      l.foldlM
          (fun acc p =>
            (lagrange_coefficient p.1 ids0).map (fun c => acc + c • p.2)) acc
        = some (l.foldl (fun acc p => acc + coefFn p.1 • p.2) acc) := by
  intro l
  induction l with
  | nil => intro _ acc; rfl
  | cons p rest ih =>
    intro hc acc
    rw [List.foldlM_cons, hc p (List.mem_cons_self p rest)]
    simp only [Option.map_some', Option.bind_eq_bind, Option.some_bind]
    rw [ih (fun q hq => hc q (List.mem_cons_of_mem p hq)) _, List.foldl_cons]

theorem foldl_add_smul {G : Type} [AddCommGroup G] (coefFn : ℤ → ℤ)
    (f : ℤ → G) :
    ∀ (S : List ℤ) (acc : G),
      (S.map (fun i => (i, f i))).foldl
          (fun acc p => acc + coefFn p.1 • p.2) acc
        = acc + (S.map (fun i => coefFn i • f i)).sum := by
  intro S
  induction S with
  | nil => intro acc; simp
  | cons i rest ih =>
    intro acc
    rw [List.map_cons, List.foldl_cons, ih, List.map_cons, List.sum_cons,
      add_assoc]

theorem list_smul_sum {G : Type} [AddCommGroup G] (x : G) :
    ∀ cs : List ℤ, ((cs.map (fun c => c • x)).sum) = cs.sum • x := by
  intro cs
  induction cs with
  | nil => simp
  | cons c rest ih =>
    rw [List.map_cons, List.sum_cons, List.sum_cons, ih, add_smul]

/-- The combined signature over any admissible signer subset is the master
signature `s • H`. -/
theorem combine_eq_secret_smul {G : Type} [AddCommGroup G] (H : G)
    (hH : (curve_order : ℤ) • H = 0)
    (n t : ℕ) (ht : 1 ≤ t) (hn : n < curve_order)
    (s : ℤ) (coefs : List ℤ) (hclen : coefs.length = t - 1)
    (S : List ℤ) (hnd : S.Nodup) (hlen : S.length = t)
    (hmem : ∀ j ∈ S, 1 ≤ j ∧ j ≤ (n : ℤ)) :
    combine_threshold_signatures t
      (S.map (fun i =>
        (i, evaluate_polynomial (generate_polynomial coefs s) i • H)))
      = some (s • H) := by
  classical
  set share := evaluate_polynomial (generate_polynomial coefs s) with hshare
  set psigs := S.map (fun i => (i, share i • H)) with hpsigs
  have hplen : psigs.length = t := by rw [hpsigs, List.length_map, hlen]
  have hfst : psigs.map Prod.fst = S := by
    rw [hpsigs, List.map_map]
    show List.map (fun a => a) S = S
    exact List.map_id' S
  have hspec := fun i hi => lagrange_coefficient_spec i S n hn hnd hmem hi
  set coefFn : ℤ → ℤ := fun i => (lagrange_coefficient i S).getD 0 with hcoefFn
  have hsome : ∀ i ∈ S, lagrange_coefficient i S = some (coefFn i) := by
    intro i hi
    obtain ⟨c, hc, -, -, -⟩ := hspec i hi
    rw [hc, hcoefFn]
    simp [hc]
  rw [combine_threshold_signatures, if_neg (by omega), if_neg (by
    intro hemp
    have := List.isEmpty_iff.mp hemp
    rw [this] at hplen
    simp at hplen
    omega)]
  rw [hfst]
  have hforall : ∀ p ∈ psigs, lagrange_coefficient p.1 S = some (coefFn p.1) := by
    intro p hp
    rcases List.mem_map.mp hp with ⟨i, hi, rfl⟩
    exact hsome i hi
  rw [combine_foldM_eq S coefFn psigs hforall 0, hpsigs,
    foldl_add_smul coefFn (fun i => share i • H) S 0, zero_add]
  have hsmul : S.map (fun i => coefFn i • (share i • H))
      = (S.map (fun i => coefFn i * share i)).map (fun c => c • H) := by
    rw [List.map_map]
    apply List.map_congr_left
    intro a _
    show coefFn a • (share a • H) = (coefFn a * share a) • H
    rw [smul_smul]
  rw [hsmul, list_smul_sum H]
  have hmodeq := lagrange_sum_cast n hn s coefs S hnd hmem (by omega)
    coefFn hsome
  have hdvd : ((curve_order : ℕ) : ℤ)
      ∣ s - (S.map (fun i => coefFn i * share i)).sum := by
    rw [← ZMod.intCast_eq_intCast_iff_dvd_sub]
    exact hmodeq
  obtain ⟨m, hm⟩ := hdvd
  have hsum : (S.map (fun i => coefFn i * share i)).sum
      = s - (curve_order : ℤ) * m := by omega
  rw [hsum, sub_smul, mul_comm, mul_smul, hH, smul_zero, sub_zero]

/-- C2: subset invariance.  For every valid `(n, t)`, shares generated from
one master secret, and a fixed message — represented by its hash point `H` in
the signature group, which the order-`curve_order` G2 subgroup kills — any two
size-`t` duplicate-free signer subsets yield the identical combined threshold
signature, and that signature is `s • H`. -/
theorem C2_combine_subset_invariance {G : Type} [AddCommGroup G] (H : G)
    (hH : (curve_order : ℤ) • H = 0)
    (n t : ℕ) (ht : 1 ≤ t) (htn : t ≤ n) (hn : n < curve_order)
    (s : ℤ) (hs0 : 0 ≤ s) (hs : s < (curve_order : ℤ))
    (coefs : List ℤ) (hclen : coefs.length = t - 1)
    (S1 S2 : List ℤ) (hnd1 : S1.Nodup) (hnd2 : S2.Nodup)
    (hlen1 : S1.length = t) (hlen2 : S2.length = t)
    (hmem1 : ∀ j ∈ S1, 1 ≤ j ∧ j ≤ (n : ℤ))
    (hmem2 : ∀ j ∈ S2, 1 ≤ j ∧ j ≤ (n : ℤ)) :
    combine_threshold_signatures t
        (S1.map (fun i =>
          (i, evaluate_polynomial (generate_polynomial coefs s) i • H)))
      = combine_threshold_signatures t
        (S2.map (fun i =>
          (i, evaluate_polynomial (generate_polynomial coefs s) i • H)))
    ∧ combine_threshold_signatures t
        (S1.map (fun i =>
          (i, evaluate_polynomial (generate_polynomial coefs s) i • H)))
      = some (s • H) := by
  have h1 := combine_eq_secret_smul H hH n t ht hn s coefs hclen S1 hnd1 hlen1 hmem1
  have h2 := combine_eq_secret_smul H hH n t ht hn s coefs hclen S2 hnd2 hlen2 hmem2
  exact ⟨h1.trans h2.symm, h1⟩

/-- Witness for C2 at the concrete input `n = 3`, `t = 2`, secret `6`,
polynomial `[6, 4]`, subsets `{1, 2}` and `{1, 3}`, with the additive group of
the scalar field standing in for the signature group and `H = 1`. -/
theorem C2_combine_subset_invariance_witness :
    ((curve_order : ℤ) • (1 : ZMod curve_order) = 0)
    ∧ combine_threshold_signatures 2
        ([(1 : ℤ), 2].map (fun i =>
          (i, evaluate_polynomial (generate_polynomial [(4 : ℤ)] 6) i
            • (1 : ZMod curve_order))))
      = combine_threshold_signatures 2
        ([(1 : ℤ), 3].map (fun i =>
          (i, evaluate_polynomial (generate_polynomial [(4 : ℤ)] 6) i
            • (1 : ZMod curve_order)))) := by
  have hH : (curve_order : ℤ) • (1 : ZMod curve_order) = 0 := by
    rw [zsmul_eq_mul, mul_one, Int.cast_natCast]
    exact ZMod.natCast_self curve_order
  exact ⟨hH,
    (C2_combine_subset_invariance (1 : ZMod curve_order) hH 3 2
      (by norm_num) (by norm_num) (by decide) 6 (by norm_num)
      (by decide) [4] (by decide) [1, 2] [1, 3] (by decide) (by decide)
      (by decide) (by decide) (by decide) (by decide)).1⟩

/-! ## The canonical BCS message (C8) -/

/-- Model of `aptos_sdk.bcs.Serializer.u64`: BCS serializes a `u64` as exactly
8 bytes, little-endian; the serializer raises for values outside
`[0, 2 ^ 64)`, modeled as `none`. -/
def serializer_u64 (x : ℤ) : Option (List ℕ) :=
  if 0 ≤ x ∧ x < 2 ^ 64 then
    some ((List.range 8).map fun k => x.toNat / 2 ^ (8 * k) % 256)
  else none

/-- Model of `aptos_sdk.bcs.Serializer.bool`: one byte, `1` for true and `0`
for false. -/
def serializer_bool (b : Bool) : List ℕ :=
  [if b then 1 else 0]

/-- `create_bcs_message_for_fomc` from `threshold_signing.py`: serialize the
`u64` magnitude, then the direction boolean, and return the accumulated BCS
bytes. -/
def create_bcs_message_for_fomc (abs_bps : ℤ) (is_increase : Bool) :
    Option (List ℕ) :=
  (serializer_u64 abs_bps).map fun u => u ++ serializer_bool is_increase

theorem le_digits_decode : ∀ L x : ℕ, x < 2 ^ (8 * L) →
    (((List.range L).map fun k => x / 2 ^ (8 * k) % 256).foldr
      (fun b acc => acc * 256 + b) 0) = x := by
  intro L
  induction L with
  | zero =>
    intro x hx
    simp only [List.range_zero, List.map_nil, List.foldr_nil]
    omega
  | succ L ih =>
    intro x hx
    rw [List.range_succ_eq_map, List.map_cons, List.foldr_cons, List.map_map]
    have hmap : (List.range L).map
        ((fun k => x / 2 ^ (8 * k) % 256) ∘ Nat.succ)
        = (List.range L).map (fun k => (x / 256) / 2 ^ (8 * k) % 256) := by
      apply List.map_congr_left
      intro k _
      show x / 2 ^ (8 * (k + 1)) % 256 = x / 256 / 2 ^ (8 * k) % 256
      rw [Nat.div_div_eq_div_mul]
      have : 256 * 2 ^ (8 * k) = 2 ^ (8 * (k + 1)) := by ring
      rw [this]
    have hdiv : x / 256 < 2 ^ (8 * L) := by
      have h2 : (2 : ℕ) ^ (8 * (L + 1)) = 256 * 2 ^ (8 * L) := by ring
      exact Nat.div_lt_of_lt_mul (h2 ▸ hx)
    rw [hmap, ih (x / 256) hdiv]
    show x / 256 * 256 + x / 2 ^ (8 * 0) % 256 = x
    have : (2 : ℕ) ^ (8 * 0) = 1 := by norm_num
    rw [this, Nat.div_one]
    omega

/-- C8: for every `0 ≤ abs_bps < 2^64` and direction flag, the BCS message is
exactly the 8 little-endian bytes of the unsigned 64-bit magnitude (they
decode back to the magnitude) followed by one direction byte (`1` for
increase, `0` for decrease) — 9 bytes, no length prefix or padding — and the
output is uniquely determined by the inputs. -/
theorem C8_bcs_message_layout (abs_bps : ℤ) (h0 : 0 ≤ abs_bps)
    (h64 : abs_bps < 2 ^ 64) (is_increase : Bool) :
    ∃ m, create_bcs_message_for_fomc abs_bps is_increase = some m
      ∧ m = ((List.range 8).map fun k => abs_bps.toNat / 2 ^ (8 * k) % 256)
          ++ [if is_increase then 1 else 0]
      ∧ m.length = 9
      ∧ ((((List.range 8).map fun k => abs_bps.toNat / 2 ^ (8 * k) % 256).foldr
          (fun b acc => acc * 256 + b) 0 : ℕ) : ℤ) = abs_bps
      ∧ ∀ m', create_bcs_message_for_fomc abs_bps is_increase = some m' →
          m' = m := by
  have hser : serializer_u64 abs_bps
      = some ((List.range 8).map fun k => abs_bps.toNat / 2 ^ (8 * k) % 256) := by
    rw [serializer_u64, if_pos ⟨h0, h64⟩]
  have hmsg : create_bcs_message_for_fomc abs_bps is_increase
      = some (((List.range 8).map fun k => abs_bps.toNat / 2 ^ (8 * k) % 256)
          ++ serializer_bool is_increase) := by
    rw [create_bcs_message_for_fomc, hser, Option.map_some']
  refine ⟨_, hmsg, rfl, ?_, ?_, ?_⟩
  · rw [List.length_append, List.length_map, List.length_range]
    rfl
  · have htn : abs_bps.toNat < 2 ^ (8 * 8) := by
      have : (2 : ℕ) ^ (8 * 8) = 2 ^ 64 := by norm_num
      omega
    rw [le_digits_decode 8 abs_bps.toNat htn]
    omega
  · intro m' hm'
    exact Option.some_inj.mp (hm'.symm.trans hmsg)

/-- Witness for C8 at the concrete input `abs_bps = 25`, `is_increase = true`
(the 25-basis-point increase used by the source's own demo). -/
theorem C8_bcs_message_layout_witness :
    ((0 : ℤ) ≤ 25 ∧ (25 : ℤ) < 2 ^ 64)
    ∧ ∃ m, create_bcs_message_for_fomc 25 true = some m
      ∧ m = ((List.range 8).map fun k => (25 : ℤ).toNat / 2 ^ (8 * k) % 256)
          ++ [if true then 1 else 0]
      ∧ m.length = 9
      ∧ ((((List.range 8).map fun k => (25 : ℤ).toNat / 2 ^ (8 * k) % 256).foldr
          (fun b acc => acc * 256 + b) 0 : ℕ) : ℤ) = 25
      ∧ ∀ m', create_bcs_message_for_fomc 25 true = some m' → m' = m :=
  ⟨⟨by norm_num, by norm_num⟩,
   C8_bcs_message_layout 25 (by norm_num) (by norm_num) true⟩

/-! ## Server-side signing (C6) -/

/-- `FOMCServer.sign_rate_change` from `multi_web_api.py`, embedded over an
abstract signing function (`sign_bcs_message`, whose BLS internals live in
`py_ecc`; hex encoding is injective, so the signature value stands for the
returned hex string): it computes `abs_bps` and `is_increase` from the signed
rate change, builds the BCS message, signs it with the server's key share,
and returns the signature.  The source performs no verification of the
produced signature before returning it. -/
def sign_rate_change {SK Sig : Type} (sign : SK → List ℕ → Sig)
    (private_key : SK) (rate_change : ℤ) : Option Sig :=
  (create_bcs_message_for_fomc |rate_change| (decide (0 < rate_change))).map
    (fun bcs_message => sign private_key bcs_message)

/-- `generate_threshold_signatures` from `threshold_signing.py`, embedded over
abstract signing and verification functions (the BLS internals live in
`py_ecc`): it checks the quorum precondition, keeps the first `t` signers, and
for each one signs the message and verifies the partial signature against that
server's public key, raising `ValueError` (modeled `none`) on any
verification failure. -/
def generate_threshold_signatures {SK PK Sig Msg : Type}
    (sign : SK → Msg → Sig) (verify : PK → Msg → Sig → Bool) (t : ℕ)
    (private_keys : ℤ → SK) (bcs_message : Msg) (indices : List ℤ)
    (public_keys : ℤ → PK) : Option (List (ℤ × Sig)) :=
  if indices.length < t then none
  else
    (indices.take t).foldlM
      (fun acc server_id =>
        let psig := sign (private_keys server_id) bcs_message
        if verify (public_keys server_id) bcs_message psig
        then some (acc ++ [(server_id, psig)])
        else none) []

/-- C6 counterexample: the web server's `sign_rate_change` contains no
self-verification step — instantiated with a signing scheme whose
verification always fails, it still returns its partial signature instead of
rejecting (the claim, as stated for every participating server path, is
false). -/
theorem C6_sign_rate_change_returns_unverified :
    sign_rate_change (fun (_ : Unit) (_ : List ℕ) => ()) () 50 = some ()
    ∧ (fun (_ : Unit) (_ : List ℕ) (_ : Unit) => false) ()
        ((create_bcs_message_for_fomc 50 true).getD []) () = false := by
  constructor
  · decide
  · rfl

theorem generate_threshold_signatures_fold {SK PK Sig Msg : Type}
    (sign : SK → Msg → Sig) (verify : PK → Msg → Sig → Bool)
    (private_keys : ℤ → SK) (bcs_message : Msg) (public_keys : ℤ → PK) :
    ∀ (l : List ℤ) (acc out : List (ℤ × Sig)),
      (∀ p ∈ acc, verify (public_keys p.1) bcs_message p.2 = true) →
      l.foldlM
        (fun acc server_id =>
          let psig := sign (private_keys server_id) bcs_message
          if verify (public_keys server_id) bcs_message psig
          then some (acc ++ [(server_id, psig)])
          else none) acc = some out →
      ∀ p ∈ out, verify (public_keys p.1) bcs_message p.2 = true := by
  intro l
  induction l with
  | nil =>
    intro acc out hacc h
    have : acc = out := Option.some_inj.mp h
    rw [← this]
    exact hacc
  | cons i rest ih =>
    intro acc out hacc h
    rw [List.foldlM_cons] at h
    by_cases hv : verify (public_keys i) bcs_message
        (sign (private_keys i) bcs_message) = true
    · simp only [hv, if_true, Option.bind_eq_bind, Option.some_bind] at h
      apply ih (acc ++ [(i, sign (private_keys i) bcs_message)]) out _ h
      intro p hp
      rcases List.mem_append.mp hp with hp' | hp'
      · exact hacc p hp'
      · rcases List.mem_singleton.mp hp' with rfl
        exact hv
    · rw [Bool.not_eq_true] at hv
      simp only [hv, if_false, Option.bind_eq_bind, Option.none_bind] at h
      exact absurd h (by simp)

/-- C6 amended: the library signing path `generate_threshold_signatures` does
verify each partial signature against the corresponding public key before
returning, raising on failure — every partial signature it returns passes
verification (whereas the HTTP server's `sign_rate_change` returns its
partial signature without any self-verification, see the counterexample). -/
theorem C6_generate_threshold_signatures_self_check {SK PK Sig Msg : Type}
    (sign : SK → Msg → Sig) (verify : PK → Msg → Sig → Bool) (t : ℕ)
    (private_keys : ℤ → SK) (bcs_message : Msg) (indices : List ℤ)
    (public_keys : ℤ → PK) (out : List (ℤ × Sig))
    (h : generate_threshold_signatures sign verify t private_keys bcs_message
      indices public_keys = some out) :
    ∀ p ∈ out, verify (public_keys p.1) bcs_message p.2 = true := by
  rw [generate_threshold_signatures] at h
  by_cases hlen : indices.length < t
  · rw [if_pos hlen] at h
    exact absurd h (by simp)
  · rw [if_neg hlen] at h
    exact generate_threshold_signatures_fold sign verify private_keys
      bcs_message public_keys (indices.take t) [] out (by intro p hp; cases hp) h

/-- Witness for the C6 amended claim at a concrete instantiation: one signer,
a trivial scheme whose verification always succeeds. -/
theorem C6_generate_threshold_signatures_self_check_witness :
    generate_threshold_signatures (fun (_ : Unit) (_ : Unit) => ())
      (fun (_ : Unit) (_ : Unit) (_ : Unit) => true) 1 (fun _ => ()) ()
      [1] (fun _ => ()) = some [((1 : ℤ), ())]
    ∧ ∀ p ∈ [((1 : ℤ), ())],
        (fun (_ : Unit) (_ : Unit) (_ : Unit) => true) () () p.2 = true :=
  ⟨by decide,
   C6_generate_threshold_signatures_self_check
     (fun (_ : Unit) (_ : Unit) => ()) (fun _ _ _ => true) 1 (fun _ => ()) ()
     [1] (fun _ => ()) [((1 : ℤ), ())] (by decide)⟩

/-! ## The client coordinator (`client.py`): C3, C4, C5 -/

/-- The response-collection loop of
`ThresholdClient.call_servers_for_extraction` (client.py lines 177-199):
responses are given in completion order, `none` standing for a failed call;
each success is recorded and the loop breaks as soon as `t` signatures have
been collected. -/
def collect_loop {σ : Type} (t : ℕ) :
    List (Option (ℤ × ℤ × σ)) → List (ℤ × ℤ × σ) → List (ℤ × ℤ × σ)
  | [], acc => acc
  | none :: rest, acc => collect_loop t rest acc
  | some r :: rest, acc =>
    if t ≤ acc.length + 1 then acc ++ [r]
    else collect_loop t rest (acc ++ [r])

/-- First-occurrence-ordered distinct values, the insertion order a CPython
dict (and hence `collections.Counter`) maintains. -/
def distinct_in_order (l : List ℤ) : List ℤ :=
  l.foldl (fun acc x => if x ∈ acc then acc else acc ++ [x]) []

def count_of (l : List ℤ) (x : ℤ) : ℕ :=
  (l.filter (fun y => y == x)).length

/-- `Counter(values).most_common(1)[0][0]`: the value with the greatest count;
CPython's sort is stable, so ties go to the earliest-encountered value, not
to the lowest id. -/
def most_common_1 (l : List ℤ) : ℤ :=
  match distinct_in_order l with
  | [] => 0
  | b :: rest =>
    rest.foldl (fun best x => if count_of l best < count_of l x then x else best) b

/-- `ThresholdClient.call_servers_for_extraction` (client.py): collect
responses in completion order until `t` successes, raise `RuntimeError`
(modeled `none`) below quorum, compute a consensus rate — the common value if
all collected responses agree, otherwise the `Counter.most_common(1)` value —
and return it together with ALL collected partial signatures: the source
keeps every responder's signature whether or not it agreed with the
consensus.  Each server responds at most once, so the source's id-keyed dicts
in insertion order are association lists here. -/
def call_servers_for_extraction {σ : Type} (t : ℕ)
    (responses : List (Option (ℤ × ℤ × σ))) : Option (ℤ × List (ℤ × σ)) :=
  let collected := collect_loop t responses []
  if collected.length < t then none
  else
    let rates := collected.map (fun r => r.2.1)
    let consensus_rate :=
      if 1 < (distinct_in_order rates).length then most_common_1 rates
      else match rates with | [] => 0 | r :: _ => r
    some (consensus_rate, collected.map (fun r => (r.1, r.2.2)))

/-- The signer selection of `ThresholdClient.combine_partial_signatures`
(client.py line 240): `sorted(partial_sigs.keys())[:t]`. -/
def selected_signers (ids : List ℤ) (t : ℕ) : List ℤ :=
  (ids.insertionSort (fun a b => a ≤ b)).take t

/-- `ThresholdClient.combine_partial_signatures` (client.py): decode the hex
signatures (the identity in this embedding), keep the `t` lowest-id
responders, and hand their signatures to `combine_threshold_signatures`. -/
def combine_partial_signatures {G : Type} [AddCommGroup G] (t : ℕ)
    (psigs : List (ℤ × G)) : Option G :=
  combine_threshold_signatures t
    ((selected_signers (psigs.map Prod.fst) t).map
      (fun sid => (sid, (psigs.lookup sid).getD 0)))

/-- The externally observable steps of `run_threshold_client` (client.py). -/
inductive ClientEvent : Type
  | health_check
  | extract_call
  | combine_call
  | verify_combined_signature
  | set_bls_public_key
  | submit_transaction
deriving DecidableEq

/-- `run_threshold_client` from `client.py`, embedded as the sequence of
outward steps it performs together with its exit code, for a given health
state and completion-ordered server responses.  The ledger collaborators
(`load_ctx`, balance reads, `set_bls_public_key_threshold`,
`call_move_real_swap_threshold`) are modeled as succeeding; extraction and
combination failures are caught by the source and turn into exit code 1
before any on-chain step.  The source never calls `verify_signature` on the
combined threshold signature, so no `verify_combined_signature` event is ever
emitted on any path. -/
def run_threshold_client {G : Type} [AddCommGroup G] (t : ℕ)
    (healthy : Bool) (responses : List (Option (ℤ × ℤ × G))) :
    List ClientEvent × ℤ :=
  if !healthy then ([.health_check], 1)
  else
    match call_servers_for_extraction t responses with
    | none => ([.health_check, .extract_call], 1)
    | some (_, psigs) =>
      match combine_partial_signatures t psigs with
      | none => ([.health_check, .extract_call, .combine_call], 1)
      | some _ =>
        ([.health_check, .extract_call, .combine_call,
          .set_bls_public_key, .submit_transaction], 0)

/-- C3 (divergence witness): with `t = 3` and responses completing as
server 3 (25 bps), then server 1 (50 bps), then server 2 (50 bps), the
coordinator's consensus is 50 (the majority value), but the partial-signature
table it returns still contains disagreeing server 3's signature, and the
signer set the combination step selects is `[1, 2, 3]` — the three lowest-id
responders — although server 3 reported 25 ≠ 50. -/
theorem C3_client_keeps_disagreeing_signer :
    call_servers_for_extraction 3
        [some ((3 : ℤ), (25 : ℤ), (30 : ℕ)), some (1, 50, 10), some (2, 50, 20)]
      = some (50, [(3, 30), (1, 10), (2, 20)])
    ∧ ((3 : ℤ), (30 : ℕ)) ∈ [((3 : ℤ), (30 : ℕ)), (1, 10), (2, 20)]
    ∧ selected_signers ([((3 : ℤ), (30 : ℕ)), (1, 10), (2, 20)].map Prod.fst) 3
      = [1, 2, 3]
    ∧ (25 : ℤ) ≠ 50 := by
  decide

/-- C4 (divergence witness): a successful client run reaches the ledger
submission step without any combined-signature verification having happened —
concretely, the run at `t = 1` with one healthy response submits (exit 0) and
its trace has no `verify_combined_signature`; moreover no execution path of
`run_threshold_client`, for any inputs, ever performs a combined-signature
verification. -/
theorem C4_submission_without_verification :
    (ClientEvent.submit_transaction ∈
        (run_threshold_client (G := ℤ) 1 true [some (1, 50, 0)]).1
      ∧ (run_threshold_client (G := ℤ) 1 true [some (1, 50, 0)]).2 = 0)
    ∧ ∀ (G : Type) (inst : AddCommGroup G) (t : ℕ) (healthy : Bool)
        (responses : List (Option (ℤ × ℤ × G))),
        ClientEvent.verify_combined_signature
          ∉ (run_threshold_client t healthy responses).1 := by
  refine ⟨by decide, ?_⟩
  intro G inst t healthy responses
  cases healthy with
  | false =>
    show ClientEvent.verify_combined_signature ∉ [ClientEvent.health_check]
    decide
  | true =>
    rw [run_threshold_client]
    rcases hcall : call_servers_for_extraction t responses with _ | p
    · show ClientEvent.verify_combined_signature
        ∉ [ClientEvent.health_check, ClientEvent.extract_call]
      decide
    · rcases p with ⟨rate, psigs⟩
      show ClientEvent.verify_combined_signature
        ∉ (match combine_partial_signatures t psigs with
            | none => ([ClientEvent.health_check, ClientEvent.extract_call,
                ClientEvent.combine_call], (1 : ℤ))
            | some _ => ([ClientEvent.health_check, ClientEvent.extract_call,
                ClientEvent.combine_call, ClientEvent.set_bls_public_key,
                ClientEvent.submit_transaction], 0)).1
      rcases hcomb : combine_partial_signatures t psigs with _ | sig
      · show ClientEvent.verify_combined_signature
          ∉ [ClientEvent.health_check, ClientEvent.extract_call,
              ClientEvent.combine_call]
        decide
      · show ClientEvent.verify_combined_signature
          ∉ [ClientEvent.health_check, ClientEvent.extract_call,
              ClientEvent.combine_call, ClientEvent.set_bls_public_key,
              ClientEvent.submit_transaction]
        decide

theorem collect_loop_all {σ : Type} (t : ℕ) :
    ∀ (responses : List (Option (ℤ × ℤ × σ))) (acc : List (ℤ × ℤ × σ)),
      acc.length + (responses.filterMap id).length < t →
      collect_loop t responses acc = acc ++ responses.filterMap id := by
  intro responses
  induction responses with
  | nil =>
    intro acc _
    simp [collect_loop]
  | cons r rest ih =>
    intro acc h
    cases r with
    | none =>
      rw [collect_loop, List.filterMap_cons]
      exact ih acc (by simpa [List.filterMap_cons] using h)
    | some x =>
      rw [collect_loop, List.filterMap_cons]
      have hlen : (rest.filterMap id).length + 1
          = ((some x :: rest).filterMap id).length := by
        rw [List.filterMap_cons]
        rfl
      rw [if_neg (by omega)]
      have := ih (acc ++ [x]) (by
        rw [List.length_append]
        simp only [List.length_singleton]
        omega)
      rw [this, List.append_assoc]
      rfl

/-- C5: below quorum everything aborts.  (i) `combine_threshold_signatures`
with fewer than `t` signatures raises an insufficient-quorum error and never
returns a signature; (ii) with fewer than `t` successful server responses
after all calls are accounted for, the coordinator raises; and (iii) the
client run then exits 1 and performs neither combination nor submission. -/
theorem C5_insufficient_quorum_aborts {G : Type} [AddCommGroup G] {σ : Type}
    (t : ℕ) :
    (∀ psigs : List (ℤ × G), psigs.length < t →
      combine_threshold_signatures t psigs = none)
    ∧ (∀ responses : List (Option (ℤ × ℤ × σ)),
        (responses.filterMap id).length < t →
        call_servers_for_extraction t responses = none)
    ∧ (∀ (healthy : Bool) (responses : List (Option (ℤ × ℤ × G))),
        (responses.filterMap id).length < t →
        (run_threshold_client t healthy responses).2 = 1
        ∧ ClientEvent.combine_call ∉ (run_threshold_client t healthy responses).1
        ∧ ClientEvent.submit_transaction
            ∉ (run_threshold_client t healthy responses).1) := by
  have hcall : ∀ responses : List (Option (ℤ × ℤ × G)),
      (responses.filterMap id).length < t →
      call_servers_for_extraction t responses = none := by
    intro responses h
    rw [call_servers_for_extraction]
    have hcol := collect_loop_all t responses [] (by simpa using h)
    simp only [List.nil_append] at hcol
    rw [hcol]
    simp only [if_pos h]
  refine ⟨?_, ?_, ?_⟩
  · intro psigs h
    rw [combine_threshold_signatures, if_pos h]
  · intro responses h
    rw [call_servers_for_extraction]
    have hcol := collect_loop_all t responses [] (by simpa using h)
    simp only [List.nil_append] at hcol
    rw [hcol]
    simp only [if_pos h]
  · intro healthy responses h
    cases healthy with
    | false =>
      have hres : run_threshold_client t false responses
          = ([.health_check], 1) := rfl
      rw [hres]
      exact ⟨rfl, by decide, by decide⟩
    | true =>
      have hres : run_threshold_client t true responses
          = ([.health_check, .extract_call], 1) := by
        rw [run_threshold_client, hcall responses h]
        rfl
      rw [hres]
      exact ⟨rfl, by decide, by decide⟩

/-- Witness for C5 at `t = 3` with one successful and one failed response. -/
theorem C5_insufficient_quorum_aborts_witness :
    combine_threshold_signatures 3 [((1 : ℤ), (0 : ℤ))] = none
    ∧ call_servers_for_extraction (σ := ℕ) 3 [some (1, 50, 10), none] = none
    ∧ (run_threshold_client (G := ℤ) 3 true [some (1, 50, 0), none]).2 = 1 :=
  ⟨(C5_insufficient_quorum_aborts (G := ℤ) (σ := ℕ) 3).1 _ (by decide),
   (C5_insufficient_quorum_aborts (G := ℤ) (σ := ℕ) 3).2.1 _ (by decide),
   ((C5_insufficient_quorum_aborts (G := ℤ) (σ := ℕ) 3).2.2 true _ (by decide)).1⟩
